import Mathlib

/-!
# protoannotate: a shallow embedding of `protoannotate.go`

The encoder walks a protobuf wire stream and writes an annotated hex dump to an
`io.Writer`.  The embedding keeps every observable effect explicit:

* a Go byte slice is its visible elements together with the spare part of its
  backing array (the bytes between `len` and `cap`), so that slice expressions
  have Go's bounds rules;
* the sink is a byte buffer with an optional budget of `Write` calls, so that
  every `if err != nil` branch of the source is present;
* a call ends with a returned value, a returned error, or a run-time panic.

The functions of `google.golang.org/protobuf/encoding/protowire`, `unicode/utf8`,
`strings` and `fmt` that the source calls are library code outside the
repository; they are embedded from their documented behaviour.
-/

namespace Protoannotate

/-- A byte. -/
abbrev Byte := Fin 256

/-- The bytes of an ASCII string literal of the source. -/
def ascii (s : String) : List Byte :=
  s.toList.map (fun c => Fin.ofNat c.toNat)

/-- Decimal rendering, the `%d` verb of `fmt` on a non-negative integer. -/
def decimal (n : Nat) : List Byte :=
  (Nat.toDigits 10 n).map (fun c => Fin.ofNat c.toNat)

/-- One lowercase hexadecimal digit. -/
def hexDigit (d : Nat) : Byte :=
  Fin.ofNat (Nat.digitChar d).toNat

/-- Two-digit, zero-padded, lowercase hexadecimal: the `%02x` verb of `fmt` on a byte. -/
def hex2 (x : Byte) : List Byte :=
  [hexDigit (x.val / 16), hexDigit (x.val % 16)]

/-- Kinds of run-time panic the source can raise. -/
inductive Panic
  | sliceBounds
  | negativeRepeat
  deriving DecidableEq, Repr

/-- The error values the source returns. -/
inductive Err
  | sink
  | unknownTag
  | parseVarint
  | parseFixed32
  | parseFixed64
  | parseBytes
  | invalidType (typ : Nat)
  deriving DecidableEq, Repr

/-- A call that does not return normally: a non-nil error, or a panic. -/
inductive Fault
  | err (e : Err)
  | panic (p : Panic)
  deriving DecidableEq, Repr

/-- A Go byte slice: `elems` are `b[0] .. b[len(b)-1]`, `spare` is the rest of the
backing array up to `cap(b)`. -/
structure Slice where
  elems : List Byte
  spare : List Byte
  deriving DecidableEq, Repr

/-- The length `len(b)`. -/
def Slice.len (b : Slice) : Nat := b.elems.length

/-- The capacity `cap(b)`. -/
def Slice.cap (b : Slice) : Nat := b.elems.length + b.spare.length

/-- The slice expression `b[n:]`; it panics unless `0 <= n <= len(b)`. -/
def Slice.sliceFrom (b : Slice) (n : Int) : Except Fault Slice :=
  if 0 ≤ n ∧ n ≤ (b.len : Int) then
    .ok { elems := b.elems.drop n.toNat, spare := b.spare }
  else .error (.panic .sliceBounds)

/-- The slice expression `b[:n]`; it panics unless `0 <= n <= cap(b)`. -/
def Slice.sliceTo (b : Slice) (n : Int) : Except Fault Slice :=
  if 0 ≤ n ∧ n ≤ (b.cap : Int) then
    .ok { elems := (b.elems ++ b.spare).take n.toNat,
          spare := (b.elems ++ b.spare).drop n.toNat }
  else .error (.panic .sliceBounds)

/-! ## protowire -/

def errCodeTruncated : Int := -1
def errCodeFieldNumber : Int := -2
def errCodeOverflow : Int := -3

def VarintType : Nat := 0
def Fixed64Type : Nat := 1
def BytesType : Nat := 2
def StartGroupType : Nat := 3
def EndGroupType : Nat := 4
def Fixed32Type : Nat := 5

def MinValidNumber : Int := 1
def MaxInt32 : Nat := 2147483647

/-- The body of `protowire.ConsumeVarint` from its `i`-th byte on (the library
unrolls the ten steps): `v` holds the bits read so far.  Arithmetic is `uint64`. -/
def consumeVarintFrom : Nat → Nat → List Byte → Nat × Int
  | _, _, [] => (0, errCodeTruncated)
  | i, v, y :: rest =>
    let v1 := (v + (y.val <<< (7 * i)) % 2 ^ 64) % 2 ^ 64
    if i < 9 then
      if y.val < 0x80 then (v1, (i : Int) + 1)
      else consumeVarintFrom (i + 1) ((v1 + 2 ^ 64 - (0x80 <<< (7 * i))) % 2 ^ 64) rest
    else
      if y.val < 2 then (v1, 10) else (0, errCodeOverflow)

/-- The function `protowire.ConsumeVarint`: the value and the number of bytes
read, or a negative error code. -/
def ConsumeVarint (b : List Byte) : Nat × Int :=
  consumeVarintFrom 0 0 b

/-- The function `protowire.DecodeTag`. -/
def DecodeTag (x : Nat) : Int × Nat :=
  if x >>> 3 > MaxInt32 then (-1, 0) else (((x >>> 3 : Nat) : Int), x &&& 7)

/-- The function `protowire.ConsumeTag`: field number, wire type and the number of
bytes read, or a negative error code. -/
def ConsumeTag (b : List Byte) : Int × Nat × Int :=
  let (v, n) := ConsumeVarint b
  if n < 0 then (0, 0, n)
  else
    let (num, typ) := DecodeTag v
    if num < MinValidNumber then (0, 0, errCodeFieldNumber)
    else (num, typ, n)

/-- The little-endian value of a run of bytes, as the library builds it with
shifts and ors. -/
def leOr : Nat → List Byte → Nat
  | _, [] => 0
  | k, y :: rest => (y.val <<< k) ||| leOr (k + 8) rest

/-- The function `protowire.ConsumeFixed32`. -/
def ConsumeFixed32 (b : List Byte) : Nat × Int :=
  if b.length < 4 then (0, errCodeTruncated)
  else (leOr 0 (b.take 4), 4)

/-- The function `protowire.ConsumeFixed64`. -/
def ConsumeFixed64 (b : List Byte) : Nat × Int :=
  if b.length < 8 then (0, errCodeTruncated)
  else (leOr 0 (b.take 8), 8)

/-- The function `protowire.ConsumeBytes`. -/
def ConsumeBytes (b : List Byte) : List Byte × Int :=
  let (m, n) := ConsumeVarint b
  if n < 0 then ([], n)
  else if m > (b.drop n.toNat).length then ([], errCodeTruncated)
  else ((b.drop n.toNat).take m, n + (m : Int))

/-! ## unicode/utf8 -/

/-- The entry of the `first` table of `unicode/utf8` for a leading byte at or
above `0x80`: the sequence length and the accepted range of the second byte. -/
def utf8First (x : Nat) : Option (Nat × Nat × Nat) :=
  if 0xC2 ≤ x ∧ x ≤ 0xDF then some (2, 0x80, 0xBF)
  else if x = 0xE0 then some (3, 0xA0, 0xBF)
  else if 0xE1 ≤ x ∧ x ≤ 0xEC then some (3, 0x80, 0xBF)
  else if x = 0xED then some (3, 0x80, 0x9F)
  else if 0xEE ≤ x ∧ x ≤ 0xEF then some (3, 0x80, 0xBF)
  else if x = 0xF0 then some (4, 0x90, 0xBF)
  else if 0xF1 ≤ x ∧ x ≤ 0xF3 then some (4, 0x80, 0xBF)
  else if x = 0xF4 then some (4, 0x80, 0x8F)
  else none

/-- A continuation byte, `0x80 .. 0xBF`. -/
def utf8Cont (c : Byte) : Bool := 0x80 ≤ c.val && c.val ≤ 0xBF

/-- The loop of `utf8.Valid`; `skip` counts the bytes of the current sequence
that were already checked. -/
def utf8ValidFrom : Nat → List Byte → Bool
  | skip + 1, _ :: rest => utf8ValidFrom skip rest
  | _ + 1, [] => false
  | 0, [] => true
  | 0, p0 :: rest =>
    if p0.val < 0x80 then utf8ValidFrom 0 rest
    else
      match utf8First p0.val with
      | none => false
      | some (size, lo, hi) =>
        match rest with
        | [] => false
        | c1 :: r1 =>
          if c1.val < lo ∨ hi < c1.val then false
          else if size = 2 then utf8ValidFrom 1 rest
          else
            match r1 with
            | [] => false
            | c2 :: r2 =>
              if !utf8Cont c2 then false
              else if size = 3 then utf8ValidFrom 2 rest
              else
                match r2 with
                | [] => false
                | c3 :: _ =>
                  if !utf8Cont c3 then false
                  else utf8ValidFrom 3 rest

/-- The function `utf8.Valid`. -/
def utf8Valid (p : List Byte) : Bool := utf8ValidFrom 0 p

/-! ## The sink and the encoder -/

/-- An `io.Writer`: the bytes written so far, and how many more `Write` calls
succeed (`none`: the sink never fails). -/
structure Sink where
  data : List Byte
  quota : Option Nat
  deriving DecidableEq, Repr

/-- One `Write` call: the new sink and whether the call succeeded. -/
def Sink.Write (s : Sink) (p : List Byte) : Sink × Bool :=
  match s.quota with
  | none => ({ s with data := s.data ++ p }, true)
  | some 0 => (s, false)
  | some (k + 1) => ({ data := s.data ++ p, quota := some k }, true)

structure Encoder where
  w : Sink
  indent : Int
  deriving DecidableEq, Repr

def NewEncoder (w : Sink) : Encoder :=
  { w := w, indent := 0 }

/-- The method `printf`, applied to the already formatted text: one `Write`. -/
def Encoder.printf (enc : Encoder) (text : List Byte) : Encoder × Except Fault Unit :=
  match enc.w.Write text with
  | (w1, true) => ({ enc with w := w1 }, .ok ())
  | (w1, false) => ({ enc with w := w1 }, .error (.err .sink))

/-- The method `writeIndent`; `strings.Repeat` panics on a negative count. -/
def Encoder.writeIndent (enc : Encoder) : Encoder × Except Fault Unit :=
  if 2 * enc.indent < 0 then (enc, .error (.panic .negativeRepeat))
  else enc.printf (List.replicate (2 * enc.indent).toNat 0x20)

/-- The loop of `writeBytes`, with its `first` flag. -/
def Encoder.writeBytesLoop (enc : Encoder) (first : Bool) :
    List Byte → Encoder × Except Fault Unit
  | [] => (enc, .ok ())
  | x :: xs =>
    match enc.printf (if first then hex2 x else 0x20 :: hex2 x) with
    | (enc1, .error f) => (enc1, .error f)
    | (enc1, .ok _) => Encoder.writeBytesLoop enc1 false xs

def Encoder.writeBytes (enc : Encoder) (b : Slice) : Encoder × Except Fault Unit :=
  enc.writeBytesLoop true b.elems

def typeToString (typ : Nat) : String :=
  if typ = VarintType then "Varint"
  else if typ = Fixed32Type then "Fixed32"
  else if typ = Fixed64Type then "Fixed64"
  else if typ = BytesType then "Bytes"
  else if typ = StartGroupType then "StartGroup"
  else if typ = EndGroupType then "EndGroup"
  else "<Unknown>"

/-- The `switch` of `encodeFieldValue`: the encoder (its `indent` may change), and
either the consumed length `n` with the rendered value `val`, or the error. -/
def Encoder.decodeValue (enc : Encoder) (typ : Nat) (b : List Byte) :
    Encoder × Except Fault (Int × List Byte) :=
  if typ = VarintType then
    let (v, n) := ConsumeVarint b
    if n < 0 then (enc, .error (.err .parseVarint))
    else (enc, .ok (n, decimal v))
  else if typ = Fixed32Type then
    let (v, n) := ConsumeFixed32 b
    if n < 0 then (enc, .error (.err .parseFixed32))
    else (enc, .ok (n, decimal v))
  else if typ = Fixed64Type then
    let (v, n) := ConsumeFixed64 b
    if n < 0 then (enc, .error (.err .parseFixed64))
    else (enc, .ok (n, decimal v))
  else if typ = BytesType then
    let (v, n) := ConsumeBytes b
    if n < 0 then (enc, .error (.err .parseBytes))
    else if utf8Valid v then (enc, .ok (n, v))
    else (enc, .ok (n, ascii "<non-utf8 byte array>"))
  else if typ = StartGroupType then
    ({ enc with indent := enc.indent + 1 }, .ok (0, ascii "Start Group"))
  else if typ = EndGroupType then
    ({ enc with indent := enc.indent - 1 }, .ok (0, ascii "End Group"))
  else (enc, .error (.err (.invalidType typ)))

def Encoder.encodeFieldValue (enc : Encoder) (typ : Nat) (b : Slice) :
    Encoder × Except Fault Int :=
  match enc.writeIndent with
  | (enc1, .error f) => (enc1, .error f)
  | (enc1, .ok _) =>
    match enc1.decodeValue typ b.elems with
    | (enc2, .error f) => (enc2, .error f)
    | (enc2, .ok (n, val)) =>
      match b.sliceTo n with
      | .error f => (enc2, .error f)
      | .ok bn =>
        match enc2.writeBytes bn with
        | (enc3, .error f) => (enc3, .error f)
        | (enc3, .ok _) =>
          match enc3.printf (ascii " // " ++ val ++ ascii "\n") with
          | (enc4, .error f) => (enc4, .error f)
          | (enc4, .ok _) => (enc4, .ok n)

def Encoder.encodeField (enc : Encoder) (b : Slice) : Encoder × Except Fault Int :=
  match enc.writeIndent with
  | (enc1, .error f) => (enc1, .error f)
  | (enc1, .ok _) =>
    let (num, typ, n) := ConsumeTag b.elems
    if n < 0 then
      match enc1.printf (ascii "// error: unknown tag: ") with
      | (enc2, .error f) => (enc2, .error f)
      | (enc2, .ok _) =>
        match b.sliceTo 4 with
        | .error f => (enc2, .error f)
        | .ok b4 =>
          match enc2.writeBytes b4 with
          | (enc3, .error f) => (enc3, .error f)
          | (enc3, .ok _) => (enc3, .error (.err .unknownTag))
    else
      match b.sliceTo n with
      | .error f => (enc1, .error f)
      | .ok bn =>
        match enc1.writeBytes bn with
        | (enc2, .error f) => (enc2, .error f)
        | (enc2, .ok _) =>
          match enc2.printf (ascii " // field id=" ++ decimal num.toNat ++ ascii " type="
              ++ ascii (typeToString typ) ++ ascii "\n") with
          | (enc3, .error f) => (enc3, .error f)
          | (enc3, .ok _) =>
            match b.sliceFrom n with
            | .error f => (enc3, .error f)
            | .ok rest =>
              match enc3.encodeFieldValue typ rest with
              | (enc4, .error f) => (enc4, .error f)
              | (enc4, .ok m) => (enc4, .ok (n + m))

/-- The loop of `Encode`, run for at most `fuel` iterations; `none` when the
iterations run out before the loop ends. -/
def Encoder.EncodeLoop : Nat → Encoder → Slice → Option (Encoder × Except Fault Unit)
  | fuel, enc, b =>
    if b.len > 0 then
      match fuel with
      | 0 => none
      | fuel + 1 =>
        match enc.encodeField b with
        | (enc1, .error f) => some (enc1, .error f)
        | (enc1, .ok n) =>
          match b.sliceFrom n with
          | .error f => some (enc1, .error f)
          | .ok b1 => Encoder.EncodeLoop fuel enc1 b1
    else some (enc, .ok ())

/-- The method `Encode`: every iteration consumes at least one byte, so `len(b)`
iterations are enough (`Encode_total`). -/
def Encoder.Encode (enc : Encoder) (b : Slice) : Option (Encoder × Except Fault Unit) :=
  Encoder.EncodeLoop b.len enc b

/-! ## Specification-side definitions -/

/-- The encoder after `text` was appended to its sink. -/
def Encoder.emit (enc : Encoder) (text : List Byte) : Encoder :=
  { enc with w := { enc.w with data := enc.w.data ++ text } }

/-- Space-separated two-digit hex of a run of bytes. -/
def hexBytes (b : List Byte) : List Byte :=
  List.intercalate [0x20] (b.map hex2)

/-- The indentation text at depth `d`: `2 * d` spaces. -/
def indentText (d : Int) : List Byte :=
  List.replicate (2 * d).toNat 0x20

/-- The tag line of a field at depth `d`. -/
def tagLine (d : Int) (tag : List Byte) (num : Int) (typ : Nat) : List Byte :=
  indentText d ++ hexBytes tag ++ ascii " // field id=" ++ decimal num.toNat ++ ascii " type="
    ++ ascii (typeToString typ) ++ ascii "\n"

/-- The value line of a field at depth `d`. -/
def valueLine (d : Int) (value val : List Byte) : List Byte :=
  indentText d ++ hexBytes value ++ ascii " // " ++ val ++ ascii "\n"

/-- The value a varint denotes: seven bits per byte, least significant group first. -/
def varintValue : List Byte → Nat
  | [] => 0
  | y :: rest => y.val % 128 + 128 * varintValue rest

/-- A well-formed varint: terminated (every byte but the last has the continuation
bit, the last has not) and within the 64-bit width (at most ten bytes, value below
`2 ^ 64`). -/
def WellFormedVarint (vb : List Byte) : Prop :=
  vb ≠ [] ∧ (∀ y ∈ vb.dropLast, 128 ≤ y.val) ∧ (∀ y ∈ vb.getLast?, y.val < 128) ∧
    vb.length ≤ 10 ∧ varintValue vb < 2 ^ 64

instance (vb : List Byte) : Decidable (WellFormedVarint vb) :=
  inferInstanceAs (Decidable (vb ≠ [] ∧ (∀ y ∈ vb.dropLast, 128 ≤ y.val) ∧
    (∀ y ∈ vb.getLast?, y.val < 128) ∧ vb.length ≤ 10 ∧ varintValue vb < 2 ^ 64))

/-- A varint cut off before its terminating byte: fewer than ten bytes, all with
the continuation bit. -/
def TruncatedVarint (b : List Byte) : Prop :=
  b.length < 10 ∧ ∀ y ∈ b, 128 ≤ y.val

instance (b : List Byte) : Decidable (TruncatedVarint b) :=
  inferInstanceAs (Decidable (b.length < 10 ∧ ∀ y ∈ b, 128 ≤ y.val))

/-- A varint beyond the maximum encodable width: nine continuation bytes followed
by a tenth byte that is neither `0` nor `1`. -/
def OverlongVarint (b : List Byte) : Prop :=
  10 ≤ b.length ∧ (∀ y ∈ b.take 9, 128 ≤ y.val) ∧ ∀ y ∈ (b.drop 9).head?, 2 ≤ y.val

instance (b : List Byte) : Decidable (OverlongVarint b) :=
  inferInstanceAs (Decidable (10 ≤ b.length ∧ (∀ y ∈ b.take 9, 128 ≤ y.val) ∧
    ∀ y ∈ (b.drop 9).head?, 2 ≤ y.val))

/-- The little-endian value of a run of bytes. -/
def leValue : List Byte → Nat
  | [] => 0
  | y :: rest => y.val + 256 * leValue rest

/-- The byte groups (tag bytes, value bytes) of the fields that the loop of `Encode`
processes: when `encodeField` returns the count `c`, the tag bytes are the bytes
`ConsumeTag` read and the value bytes are the rest of the `c` bytes. -/
def Encoder.fieldGroups : Nat → Encoder → Slice → List (List Byte × List Byte)
  | 0, _, _ => []
  | fuel + 1, enc, b =>
    if b.len > 0 then
      match enc.encodeField b with
      | (_, .error _) => []
      | (enc1, .ok c) =>
        let n := (ConsumeTag b.elems).2.2
        let g := (b.elems.take n.toNat, (b.elems.drop n.toNat).take (c - n).toNat)
        match b.sliceFrom c with
        | .error _ => [g]
        | .ok b1 => g :: Encoder.fieldGroups fuel enc1 b1
    else []

/-- The counts returned by the successive `encodeField` calls of the loop of `Encode`. -/
def Encoder.fieldCounts : Nat → Encoder → Slice → List Int
  | 0, _, _ => []
  | fuel + 1, enc, b =>
    if b.len > 0 then
      match enc.encodeField b with
      | (_, .error _) => []
      | (enc1, .ok c) =>
        match b.sliceFrom c with
        | .error _ => [c]
        | .ok b1 => c :: Encoder.fieldCounts fuel enc1 b1
    else []

instance : DecidableEq (Except Fault Unit) := fun a b =>
  match a, b with
  | .ok (), .ok () => isTrue rfl
  | .error e, .error f =>
    if h : e = f then isTrue (by rw [h]) else isFalse (by intro hh; cases hh; exact h rfl)
  | .ok (), .error _ => isFalse (by intro h; cases h)
  | .error _, .ok () => isFalse (by intro h; cases h)

instance : DecidableEq (Except Fault Int) := fun a b =>
  match a, b with
  | .ok x, .ok y =>
    if h : x = y then isTrue (by rw [h]) else isFalse (by intro hh; cases hh; exact h rfl)
  | .error e, .error f =>
    if h : e = f then isTrue (by rw [h]) else isFalse (by intro hh; cases hh; exact h rfl)
  | .ok _, .error _ => isFalse (by intro h; cases h)
  | .error _, .ok _ => isFalse (by intro h; cases h)

/-- A sink that never fails and holds nothing yet. -/
def emptySink : Sink := { data := [], quota := none }

/-! ## Definitions for depth, lines and repeated calls -/

/-- The change of the nesting depth made by a field of wire type `typ`. -/
def depthChange (typ : Nat) : Int :=
  if typ = StartGroupType then 1 else if typ = EndGroupType then -1 else 0

/-- The encoder `e` with `data` put in front of what its sink holds. -/
def Encoder.prepend (data : List Byte) (e : Encoder) : Encoder :=
  { e with w := { e.w with data := data ++ e.w.data } }

/-- An encoder at depth `d` whose sink never fails and holds nothing yet. -/
def encoderAt (d : Int) : Encoder :=
  { w := emptySink, indent := d }

/-- The wire types of the fields that the loop of `Encode` processes without error,
in order. -/
def Encoder.fieldTypes : Nat → Encoder → Slice → List Nat
  | 0, _, _ => []
  | fuel + 1, enc, b =>
    if b.len > 0 then
      match enc.encodeField b with
      | (_, .error _) => []
      | (enc1, .ok c) =>
        match b.sliceFrom c with
        | .error _ => [(ConsumeTag b.elems).2.1]
        | .ok b1 => (ConsumeTag b.elems).2.1 :: Encoder.fieldTypes fuel enc1 b1
    else []

/-- The nesting depth before each field that the loop of `Encode` processes without
error, in order. -/
def Encoder.fieldDepths : Nat → Encoder → Slice → List Int
  | 0, _, _ => []
  | fuel + 1, enc, b =>
    if b.len > 0 then
      match enc.encodeField b with
      | (_, .error _) => []
      | (enc1, .ok c) =>
        match b.sliceFrom c with
        | .error _ => [enc.indent]
        | .ok b1 => enc.indent :: Encoder.fieldDepths fuel enc1 b1
    else []

/-- The number of space characters a text begins with. -/
def leadingSpaces (l : List Byte) : Nat :=
  (l.takeWhile (fun c => c = 0x20)).length

/-- The name of a wire type in the enumeration of the specification (Varint,
Fixed32, Fixed64, LengthDelimited, StartGroup, EndGroup); this follows the words of
the specification, not the source. -/
def specTypeName (typ : Nat) : Option String :=
  if typ = VarintType then some "Varint"
  else if typ = Fixed32Type then some "Fixed32"
  else if typ = Fixed64Type then some "Fixed64"
  else if typ = BytesType then some "LengthDelimited"
  else if typ = StartGroupType then some "StartGroup"
  else if typ = EndGroupType then some "EndGroup"
  else none

/-- The number of newline characters in a text. -/
def newlines (l : List Byte) : Nat := l.count 0x0A

/-- The lines of the fields that the loop of `Encode` processes without error: for
each field its tag line, its value line, and the rendered value inside the value
line. -/
def Encoder.fieldLines : Nat → Encoder → Slice → List (List Byte × List Byte × List Byte)
  | 0, _, _ => []
  | fuel + 1, enc, b =>
    if b.len > 0 then
      match enc.encodeField b with
      | (_, .error _) => []
      | (enc1, .ok c) =>
        let t := ConsumeTag b.elems
        let rest := b.elems.drop t.2.2.toNat
        let val := match (enc.decodeValue t.2.1 rest).2 with
          | .ok (_, v) => v
          | .error _ => []
        let g := (tagLine enc.indent (b.elems.take t.2.2.toNat) t.1 t.2.1,
          valueLine enc.indent (rest.take (c - t.2.2).toNat) val, val)
        match b.sliceFrom c with
        | .error _ => [g]
        | .ok b1 => g :: Encoder.fieldLines fuel enc1 b1
    else []

/-! ## The sink -/

@[simp] theorem emit_quota (enc : Encoder) (t : List Byte) : (enc.emit t).w.quota = enc.w.quota := rfl
@[simp] theorem emit_indent (enc : Encoder) (t : List Byte) : (enc.emit t).indent = enc.indent := rfl
@[simp] theorem emit_data (enc : Encoder) (t : List Byte) : (enc.emit t).w.data = enc.w.data ++ t := rfl
theorem emit_emit (enc : Encoder) (s t : List Byte) : (enc.emit s).emit t = enc.emit (s ++ t) := by
  simp [Encoder.emit, List.append_assoc]
@[simp] theorem emit_nil (enc : Encoder) : enc.emit [] = enc := by
  simp [Encoder.emit]

theorem printf_ok (enc : Encoder) (t : List Byte) (h : enc.w.quota = none) :
    enc.printf t = (enc.emit t, .ok ()) := by
  simp [Encoder.printf, Sink.Write, h, Encoder.emit]

theorem writeIndent_ok (enc : Encoder) (h : enc.w.quota = none) (hd : 0 ≤ enc.indent) :
    enc.writeIndent = (enc.emit (indentText enc.indent), .ok ()) := by
  have : ¬ (2 * enc.indent < 0) := by omega
  simp [Encoder.writeIndent, this, printf_ok _ _ h, indentText]

theorem hexBytes_cons (x : Byte) (xs : List Byte) :
    hexBytes (x :: xs) = hex2 x ++ xs.flatMap (fun y => 0x20 :: hex2 y) := by
  induction xs generalizing x with
  | nil => simp [hexBytes, List.intercalate]
  | cons y ys ih =>
    have := ih y
    simp [hexBytes, List.intercalate] at this ⊢
    rw [this]

theorem writeBytesLoop_false_ok (enc : Encoder) (xs : List Byte) (h : enc.w.quota = none) :
    enc.writeBytesLoop false xs = (enc.emit (xs.flatMap (fun y => 0x20 :: hex2 y)), .ok ()) := by
  induction xs generalizing enc with
  | nil => simp [Encoder.writeBytesLoop]
  | cons x xs ih =>
    simp only [Encoder.writeBytesLoop, printf_ok _ _ h, Bool.false_eq_true, if_false]
    rw [ih _ (by simp [h]), emit_emit]
    simp

theorem writeBytes_ok (enc : Encoder) (b : Slice) (h : enc.w.quota = none) :
    enc.writeBytes b = (enc.emit (hexBytes b.elems), .ok ()) := by
  unfold Encoder.writeBytes
  cases hb : b.elems with
  | nil => simp [Encoder.writeBytesLoop, hexBytes, List.intercalate]
  | cons x xs =>
    simp only [Encoder.writeBytesLoop, printf_ok _ _ h, if_true]
    rw [writeBytesLoop_false_ok _ _ (by simp [h]), emit_emit, hexBytes_cons]

/-! ## The protowire readers -/

theorem consumeVarintFrom_cons (i v : Nat) (y : Byte) (rest : List Byte) :
    consumeVarintFrom i v (y :: rest) =
      if i < 9 then
        if y.val < 0x80 then ((v + (y.val <<< (7 * i)) % 2 ^ 64) % 2 ^ 64, (i : Int) + 1)
        else consumeVarintFrom (i + 1)
          (((v + (y.val <<< (7 * i)) % 2 ^ 64) % 2 ^ 64 + 2 ^ 64 - (0x80 <<< (7 * i))) % 2 ^ 64) rest
      else
        if y.val < 2 then ((v + (y.val <<< (7 * i)) % 2 ^ 64) % 2 ^ 64, 10) else (0, errCodeOverflow) := by
  simp [consumeVarintFrom]

theorem consumeVarintFrom_spec (vb : List Byte) : ∀ (i v : Nat) (rest : List Byte),
    vb ≠ [] → (∀ y ∈ vb.dropLast, 128 ≤ y.val) → (∀ y ∈ vb.getLast?, y.val < 128) →
    i + vb.length ≤ 10 → v < 2 ^ (7 * i) → v + 2 ^ (7 * i) * varintValue vb < 2 ^ 64 →
    consumeVarintFrom i v (vb ++ rest) =
      (v + 2 ^ (7 * i) * varintValue vb, ((i + vb.length : Nat) : Int)) := by
  induction vb with
  | nil => intro i v rest h; exact absurd rfl h
  | cons y ys ih =>
    intro i v rest _ hcont hlast hlen hv hval
    have hy := y.isLt
    rw [List.cons_append, consumeVarintFrom_cons]
    cases ys with
    | nil =>
      have hy7 : y.val < 128 := hlast y (by simp)
      simp only [List.length_singleton] at hlen
      simp only [varintValue, Nat.mod_eq_of_lt hy7] at hval ⊢
      simp only [Nat.shiftLeft_eq, List.length_singleton]
      have hi : i ≤ 9 := by omega
      interval_cases i <;> norm_num at hv hval ⊢ <;> (try split) <;>
        simp <;> omega
    | cons z zs =>
      have hy7 : 128 ≤ y.val := hcont y (by simp [List.dropLast])
      simp only [List.length_cons] at hlen
      have hi : i ≤ 8 := by omega
      have hnot : ¬ (y.val < 0x80) := by omega
      have hi9 : i < 9 := by omega
      have key : ((v + (y.val <<< (7 * i)) % 2 ^ 64) % 2 ^ 64 + 2 ^ 64 - (0x80 <<< (7 * i))) % 2 ^ 64
          = v + 2 ^ (7 * i) * (y.val % 128) := by
        simp only [Nat.shiftLeft_eq]
        interval_cases i <;> norm_num at hv ⊢ <;> omega
      have hv1 : v + 2 ^ (7 * i) * (y.val % 128) < 2 ^ (7 * (i + 1)) := by
        interval_cases i <;> norm_num at hv ⊢ <;> omega
      have hval1 : v + 2 ^ (7 * i) * (y.val % 128) + 2 ^ (7 * (i + 1)) * varintValue (z :: zs) < 2 ^ 64 := by
        simp only [varintValue] at hval ⊢
        generalize varintValue zs = T at hval ⊢
        interval_cases i <;> norm_num at hval ⊢ <;> omega
      simp only [hi9, if_true, hnot, if_false]
      rw [key, ih (i + 1) _ rest (by simp)
        (fun w hw => hcont w (by simp [List.dropLast] at hw ⊢; exact Or.inr hw))
        (fun w hw => hlast w (by simpa using hw))
        (by simp only [List.length_cons]; omega) hv1 hval1]
      have e1 : v + 2 ^ (7 * i) * (y.val % 128) + 2 ^ (7 * (i + 1)) * varintValue (z :: zs)
          = v + 2 ^ (7 * i) * varintValue (y :: z :: zs) := by
        simp only [varintValue]
        generalize varintValue zs = T
        interval_cases i <;> norm_num <;> omega
      rw [e1]
      congr 1
      simp only [List.length_cons]; push_cast; omega

theorem ConsumeVarint_spec (vb rest : List Byte) (h : WellFormedVarint vb) :
    ConsumeVarint (vb ++ rest) = (varintValue vb, (vb.length : Int)) := by
  obtain ⟨h1, h2, h3, h4, h5⟩ := h
  have := consumeVarintFrom_spec vb 0 0 rest h1 h2 h3 (by omega) (by norm_num) (by simpa using h5)
  simpa [ConsumeVarint] using this

/-- The length reported by the varint reader is an error code, or lies between
one past the bytes already read and the end of the input (and is at most ten). -/
theorem consumeVarintFrom_bounds (b : List Byte) : ∀ (i v : Nat), i ≤ 9 →
    (consumeVarintFrom i v b).2 < 0 ∨
      ((i : Int) + 1 ≤ (consumeVarintFrom i v b).2 ∧
        (consumeVarintFrom i v b).2 ≤ (i : Int) + b.length ∧
        (consumeVarintFrom i v b).2 ≤ 10 ∧ (consumeVarintFrom i v b).1 < 2 ^ 64) := by
  induction b with
  | nil => intro i v _; left; simp [consumeVarintFrom, errCodeTruncated]
  | cons y ys ih =>
    intro i v hi
    rw [consumeVarintFrom_cons]
    by_cases h9 : i < 9
    · simp only [h9, if_true]
      by_cases hy : y.val < 0x80
      · simp only [hy, if_true]
        right
        refine ⟨le_refl _, ?_, ?_, Nat.mod_lt _ (by norm_num)⟩
        · simp only [List.length_cons]; push_cast; omega
        · omega
      · simp only [hy, if_false]
        have ih1 := ih (i + 1) (((v + (y.val <<< (7 * i)) % 2 ^ 64) % 2 ^ 64 + 2 ^ 64
            - (0x80 <<< (7 * i))) % 2 ^ 64) (by omega)
        generalize consumeVarintFrom (i + 1) _ ys = r at ih1 ⊢
        rcases ih1 with h | ⟨h1, h2, h3, h4⟩
        · left; exact h
        · right
          refine ⟨?_, ?_, h3, h4⟩
          · push_cast at h1; omega
          · simp only [List.length_cons]; push_cast at h2 ⊢; omega
    · simp only [h9, if_false]
      have hi9 : i = 9 := by omega
      by_cases hy : y.val < 2
      · simp only [hy, if_true]
        right
        refine ⟨by subst hi9; norm_num, ?_, le_refl _, Nat.mod_lt _ (by norm_num)⟩
        subst hi9; simp only [List.length_cons]; push_cast; omega
      · simp only [hy, if_false]
        left; simp [errCodeOverflow]

theorem ConsumeVarint_bounds (b : List Byte) :
    (ConsumeVarint b).2 < 0 ∨
      (1 ≤ (ConsumeVarint b).2 ∧ (ConsumeVarint b).2 ≤ b.length ∧
        (ConsumeVarint b).2 ≤ 10 ∧ (ConsumeVarint b).1 < 2 ^ 64) := by
  have := consumeVarintFrom_bounds b 0 0 (by omega)
  simpa [ConsumeVarint] using this

theorem ConsumeTag_bounds (b : List Byte) :
    (ConsumeTag b).2.2 < 0 ∨
      (1 ≤ (ConsumeTag b).2.2 ∧ (ConsumeTag b).2.2 ≤ b.length ∧ 1 ≤ (ConsumeTag b).1) := by
  unfold ConsumeTag
  rcases ConsumeVarint_bounds b with h | ⟨h1, h2, _, _⟩
  · left
    rcases hc : ConsumeVarint b with ⟨v, n⟩
    rw [hc] at h
    simp only at h
    simp [h]
  · rcases hc : ConsumeVarint b with ⟨v, n⟩
    rw [hc] at h1 h2
    simp only at h1 h2
    have hn : ¬ n < 0 := by omega
    simp only [hn, if_false]
    rcases hd : DecodeTag v with ⟨num, typ⟩
    by_cases hnum : num < MinValidNumber
    · left; simp [hnum, errCodeFieldNumber]
    · right
      simp only [hnum, if_false]
      refine ⟨h1, h2, ?_⟩
      simp only [MinValidNumber] at hnum; omega

theorem ConsumeFixed32_bounds (b : List Byte) :
    (ConsumeFixed32 b).2 < 0 ∨ ((ConsumeFixed32 b).2 = 4 ∧ 4 ≤ b.length) := by
  unfold ConsumeFixed32
  by_cases h : b.length < 4
  · left; simp [h, errCodeTruncated]
  · right; simp only [h, if_false]; exact ⟨trivial, by omega⟩

theorem ConsumeFixed64_bounds (b : List Byte) :
    (ConsumeFixed64 b).2 < 0 ∨ ((ConsumeFixed64 b).2 = 8 ∧ 8 ≤ b.length) := by
  unfold ConsumeFixed64
  by_cases h : b.length < 8
  · left; simp [h, errCodeTruncated]
  · right; simp only [h, if_false]; exact ⟨trivial, by omega⟩

theorem ConsumeBytes_bounds (b : List Byte) :
    (ConsumeBytes b).2 < 0 ∨ (1 ≤ (ConsumeBytes b).2 ∧ (ConsumeBytes b).2 ≤ b.length) := by
  unfold ConsumeBytes
  rcases ConsumeVarint_bounds b with h | ⟨h1, h2, _, _⟩
  · left
    rcases hc : ConsumeVarint b with ⟨v, n⟩
    rw [hc] at h
    simp only at h
    simp [h]
  · rcases hc : ConsumeVarint b with ⟨m, n⟩
    rw [hc] at h1 h2
    simp only at h1 h2
    have hn : ¬ n < 0 := by omega
    simp only [hn, if_false]
    by_cases hm : m > (b.drop n.toNat).length
    · left; rw [if_pos hm]; simp [errCodeTruncated]
    · right
      rw [if_neg hm]
      simp only [List.length_drop] at hm
      constructor <;> omega

theorem decodeValue_sink (enc : Encoder) (typ : Nat) (l : List Byte) :
    (enc.decodeValue typ l).1.w = enc.w := by
  unfold Encoder.decodeValue
  repeat' split
  all_goals rfl

theorem decodeValue_count (enc : Encoder) (typ : Nat) (l : List Byte) (enc2 : Encoder)
    (n : Int) (val : List Byte) (h : enc.decodeValue typ l = (enc2, .ok (n, val))) :
    0 ≤ n ∧ n ≤ l.length := by
  unfold Encoder.decodeValue at h
  split at h
  · rcases hc : ConsumeVarint l with ⟨v, k⟩
    have hb := ConsumeVarint_bounds l
    rw [hc] at hb h
    simp only at hb h
    split at h <;> simp at h
    omega
  · split at h
    · rcases hc : ConsumeFixed32 l with ⟨v, k⟩
      have hb := ConsumeFixed32_bounds l
      rw [hc] at hb h
      simp only at hb h
      split at h <;> simp at h
      omega
    · split at h
      · rcases hc : ConsumeFixed64 l with ⟨v, k⟩
        have hb := ConsumeFixed64_bounds l
        rw [hc] at hb h
        simp only at hb h
        split at h <;> simp at h
        omega
      · split at h
        · rcases hc : ConsumeBytes l with ⟨v, k⟩
          have hb := ConsumeBytes_bounds l
          rw [hc] at hb h
          simp only at hb h
          split at h
          · simp at h
          · split at h <;> simp at h <;> omega
        · split at h
          · simp at h; omega
          · split at h
            · simp at h; omega
            · simp at h

theorem encodeFieldValue_count (enc : Encoder) (typ : Nat) (b : Slice) (enc' : Encoder)
    (m : Int) (h : enc.encodeFieldValue typ b = (enc', .ok m)) :
    0 ≤ m ∧ m ≤ b.len := by
  unfold Encoder.encodeFieldValue at h
  split at h
  · simp at h
  · split at h
    · simp at h
    · rename_i hdv
      have := decodeValue_count _ _ _ _ _ _ hdv
      split at h
      · simp at h
      · split at h
        · simp at h
        · split at h
          · simp at h
          · simp at h
            simp only [Slice.len]
            omega

theorem encodeField_count (enc : Encoder) (b : Slice) (enc' : Encoder) (n : Int)
    (h : enc.encodeField b = (enc', .ok n)) :
    1 ≤ (ConsumeTag b.elems).2.2 ∧ (ConsumeTag b.elems).2.2 ≤ n ∧ n ≤ b.len := by
  unfold Encoder.encodeField at h
  split at h
  · simp at h
  · rcases hc : ConsumeTag b.elems with ⟨num, typ, k⟩
    rw [hc] at h
    simp only at h
    have hb := ConsumeTag_bounds b.elems
    rw [hc] at hb
    simp only at hb
    split at h
    · split at h
      · simp at h
      · split at h
        · simp at h
        · split at h <;> simp at h
    · rcases hb with hb | ⟨hb1, hb2, _⟩
      · omega
      · split at h
        · simp at h
        · split at h
          · simp at h
          · split at h
            · simp at h
            · split at h
              · simp at h
              · rename_i rest hsf
                split at h
                · simp at h
                · rename_i enc4 m hfv
                  have hm := encodeFieldValue_count _ _ _ _ _ hfv
                  simp at h
                  have hrest : rest.len = b.len - k.toNat := by
                    unfold Slice.sliceFrom at hsf
                    split at hsf
                    · simp at hsf
                      rw [← hsf]; simp [Slice.len]
                    · simp at hsf
                  simp only [Slice.len] at hm hrest ⊢
                  omega

theorem leOr_eq (l : List Byte) : ∀ k, leOr k l = 2 ^ k * leValue l := by
  induction l with
  | nil => intro k; simp [leOr, leValue]
  | cons y ys ih =>
    intro k
    have hy : 2 ^ k * y.val < 2 ^ (k + 8) := by
      have := y.isLt
      rw [pow_add]
      exact Nat.mul_lt_mul_of_pos_left (by simp) (by positivity)
    rw [leOr, ih, Nat.shiftLeft_eq, leValue, Nat.or_comm, Nat.mul_comm y.val,
      ← Nat.mul_add_lt_is_or hy]
    ring

/-! ## The loop of `Encode` -/

theorem EncodeLoop_unfold (fuel : Nat) (enc : Encoder) (b : Slice) :
    Encoder.EncodeLoop fuel enc b =
      if b.len > 0 then
        match fuel with
        | 0 => none
        | fuel + 1 =>
          match enc.encodeField b with
          | (enc1, .error f) => some (enc1, .error f)
          | (enc1, .ok n) =>
            match b.sliceFrom n with
            | .error f => some (enc1, .error f)
            | .ok b1 => Encoder.EncodeLoop fuel enc1 b1
      else some (enc, .ok ()) := by
  cases fuel <;> rfl

theorem sliceFrom_ok (b : Slice) (n : Int) (h0 : 0 ≤ n) (h1 : n ≤ b.len) :
    b.sliceFrom n = .ok { elems := b.elems.drop n.toNat, spare := b.spare } := by
  simp [Slice.sliceFrom, h0, h1]

theorem EncodeLoop_fuel_aux (fuel : Nat) : ∀ (enc : Encoder) (b : Slice), b.len ≤ fuel →
    ∀ fuel2, b.len ≤ fuel2 →
      Encoder.EncodeLoop fuel enc b = Encoder.EncodeLoop fuel2 enc b ∧
        (Encoder.EncodeLoop fuel enc b).isSome = true := by
  induction fuel with
  | zero =>
    intro enc b hb fuel2 _
    have : ¬ (b.len > 0) := by omega
    rw [EncodeLoop_unfold, EncodeLoop_unfold fuel2]
    simp [this]
  | succ k ih =>
    intro enc b hb fuel2 hb2
    rw [EncodeLoop_unfold (k + 1), EncodeLoop_unfold fuel2]
    by_cases hpos : b.len > 0
    · simp only [hpos, if_true]
      obtain ⟨j, rfl⟩ : ∃ j, fuel2 = j + 1 := ⟨fuel2 - 1, by omega⟩
      simp only
      rcases hf : enc.encodeField b with ⟨enc1, r⟩
      cases r with
      | error f => simp
      | ok n =>
        have hc := encodeField_count enc b enc1 n hf
        have hn0 : 0 ≤ n := by omega
        simp only [sliceFrom_ok b n hn0 hc.2.2]
        have hlen : (⟨b.elems.drop n.toNat, b.spare⟩ : Slice).len ≤ k := by
          simp only [Slice.len, List.length_drop] at hb ⊢; omega
        have hlen2 : (⟨b.elems.drop n.toNat, b.spare⟩ : Slice).len ≤ j := by
          simp only [Slice.len, List.length_drop] at hb2 ⊢; omega
        exact ih enc1 _ hlen j hlen2
    · simp [hpos]

/-- The loop of `Encode` ends on every input: `len(b)` iterations are enough. -/
theorem Encode_total (enc : Encoder) (b : Slice) : ∃ r, enc.Encode b = some r := by
  have := (EncodeLoop_fuel_aux b.len enc b (le_refl _) b.len (le_refl _)).2
  exact Option.isSome_iff_exists.mp this

theorem Encode_nil (enc : Encoder) (b : Slice) (h : b.elems = []) :
    enc.Encode b = some (enc, .ok ()) := by
  unfold Encoder.Encode
  rw [EncodeLoop_unfold]
  simp [Slice.len, h]

theorem Encode_fail (enc : Encoder) (b : Slice) (enc1 : Encoder) (f : Fault)
    (hb : 0 < b.len) (h : enc.encodeField b = (enc1, .error f)) :
    enc.Encode b = some (enc1, .error f) := by
  unfold Encoder.Encode
  rw [EncodeLoop_unfold]
  obtain ⟨j, hj⟩ : ∃ j, b.len = j + 1 := ⟨b.len - 1, by omega⟩
  rw [if_pos hb, hj]
  simp only [h]

theorem Encode_step (enc : Encoder) (b : Slice) (enc1 : Encoder) (n : Int)
    (h : enc.encodeField b = (enc1, .ok n)) :
    enc.Encode b = enc1.Encode { elems := b.elems.drop n.toNat, spare := b.spare } := by
  have hc := encodeField_count enc b enc1 n h
  have hb : 0 < b.len := by omega
  unfold Encoder.Encode
  rw [EncodeLoop_unfold]
  obtain ⟨j, hj⟩ : ∃ j, b.len = j + 1 := ⟨b.len - 1, by omega⟩
  rw [if_pos hb, hj]
  simp only [h, sliceFrom_ok b n (by omega) hc.2.2]
  refine (EncodeLoop_fuel_aux j enc1 _ ?_ _ (le_refl _)).1
  simp only [Slice.len, List.length_drop] at hj ⊢; omega

theorem sliceTo_ok (b : Slice) (n : Int) (h0 : 0 ≤ n) (h1 : n ≤ b.len) :
    b.sliceTo n = .ok { elems := b.elems.take n.toNat,
                        spare := b.elems.drop n.toNat ++ b.spare } := by
  have hn : n.toNat ≤ b.elems.length := by simp only [Slice.len] at h1; omega
  have hc : n ≤ (b.cap : Int) := by simp only [Slice.len, Slice.cap] at h1 ⊢; omega
  simp [Slice.sliceTo, h0, hc, List.take_append_of_le_length hn,
    List.drop_append_of_le_length hn]

theorem decodeValue_emit (enc : Encoder) (t : List Byte) (typ : Nat) (l : List Byte) :
    (enc.emit t).decodeValue typ l =
      (((enc.decodeValue typ l).1).emit t, (enc.decodeValue typ l).2) := by
  unfold Encoder.decodeValue
  repeat' split
  all_goals rfl

theorem encodeFieldValue_ok (enc enc2 : Encoder) (typ : Nat) (b : Slice) (n : Int)
    (val : List Byte) (hq : enc.w.quota = none) (hd : 0 ≤ enc.indent)
    (hdv : enc.decodeValue typ b.elems = (enc2, .ok (n, val))) :
    enc.encodeFieldValue typ b =
      (enc2.emit (valueLine enc.indent (b.elems.take n.toNat) val), .ok n) := by
  have hc := decodeValue_count _ _ _ _ _ _ hdv
  have hs := decodeValue_sink enc typ b.elems
  rw [hdv] at hs
  simp only at hs
  have hq2 : enc2.w.quota = none := by rw [hs]; exact hq
  unfold Encoder.encodeFieldValue
  rw [writeIndent_ok enc hq hd]
  simp only [decodeValue_emit, hdv]
  rw [sliceTo_ok b n hc.1 (by simpa [Slice.len] using hc.2)]
  simp only [writeBytes_ok _ _ (show (enc2.emit _).w.quota = none by simpa using hq2),
    printf_ok _ _ (show ((enc2.emit _).emit _).w.quota = none by simpa using hq2)]
  simp [emit_emit, valueLine, List.append_assoc]

theorem encodeFieldValue_err (enc enc2 : Encoder) (typ : Nat) (b : Slice) (f : Fault)
    (hq : enc.w.quota = none) (hd : 0 ≤ enc.indent)
    (hdv : enc.decodeValue typ b.elems = (enc2, .error f)) :
    enc.encodeFieldValue typ b = (enc2.emit (indentText enc.indent), .error f) := by
  unfold Encoder.encodeFieldValue
  rw [writeIndent_ok enc hq hd]
  simp only [decodeValue_emit, hdv]

theorem encodeField_ok (enc : Encoder) (b : Slice) (num : Int) (typ : Nat) (n : Int)
    (hq : enc.w.quota = none) (hd : 0 ≤ enc.indent)
    (ht : ConsumeTag b.elems = (num, typ, n)) (hn : 0 ≤ n) :
    enc.encodeField b =
      match (enc.emit (tagLine enc.indent (b.elems.take n.toNat) num typ)).encodeFieldValue typ
          { elems := b.elems.drop n.toNat, spare := b.spare } with
      | (enc4, .error f) => (enc4, .error f)
      | (enc4, .ok m) => (enc4, .ok (n + m)) := by
  have hb := ConsumeTag_bounds b.elems
  rw [ht] at hb
  simp only at hb
  have hb2 : n ≤ (b.len : Int) := by simp only [Slice.len]; omega
  have hneg : ¬ n < 0 := by omega
  unfold Encoder.encodeField
  rw [writeIndent_ok enc hq hd]
  simp only [ht, hneg, if_false]
  rw [sliceTo_ok b n hn hb2, sliceFrom_ok b n hn hb2]
  simp only [writeBytes_ok _ _ (show (enc.emit _).w.quota = none by simpa using hq),
    printf_ok _ _ (show ((enc.emit _).emit _).w.quota = none by simpa using hq)]
  simp only [emit_emit, tagLine, List.append_assoc]

theorem encodeField_unknownTag (enc : Encoder) (b : Slice)
    (hq : enc.w.quota = none) (hd : 0 ≤ enc.indent)
    (ht : (ConsumeTag b.elems).2.2 < 0) :
    enc.encodeField b =
      if 4 ≤ b.cap then
        (enc.emit (indentText enc.indent ++ ascii "// error: unknown tag: "
          ++ hexBytes ((b.elems ++ b.spare).take 4)), .error (.err .unknownTag))
      else
        (enc.emit (indentText enc.indent ++ ascii "// error: unknown tag: "),
          .error (.panic .sliceBounds)) := by
  unfold Encoder.encodeField
  rw [writeIndent_ok enc hq hd]
  rcases hc : ConsumeTag b.elems with ⟨num, typ, n⟩
  rw [hc] at ht
  simp only at ht
  simp only [ht, if_true]
  rw [printf_ok _ _ (show (enc.emit _).w.quota = none by simpa using hq)]
  by_cases h4 : 4 ≤ b.cap
  · have h4i : (4 : Int) ≤ (b.cap : Int) := by exact_mod_cast h4
    simp only [Slice.sliceTo, h4i, h4, if_true, show (0 : Int) ≤ 4 by norm_num, and_self]
    rw [writeBytes_ok _ _ (show ((enc.emit _).emit _).w.quota = none by simpa using hq)]
    simp [emit_emit, List.append_assoc]
  · have h4i : ¬ (4 : Int) ≤ (b.cap : Int) := by exact_mod_cast h4
    simp [Slice.sliceTo, h4i, h4, emit_emit]

/-! ## Decoding lemmas -/

theorem ConsumeTag_spec (vb rest : List Byte) (hwf : WellFormedVarint vb)
    (hlo : 1 ≤ varintValue vb >>> 3) (hhi : varintValue vb >>> 3 ≤ 2147483647) :
    ConsumeTag (vb ++ rest) =
      (((varintValue vb >>> 3 : Nat) : Int), varintValue vb &&& 7, (vb.length : Int)) := by
  unfold ConsumeTag
  rw [ConsumeVarint_spec vb rest hwf]
  have h1 : ¬ ((vb.length : Int) < 0) := by omega
  have h2 : ¬ (varintValue vb >>> 3 > MaxInt32) := by simp only [MaxInt32]; omega
  have h3 : ¬ (((varintValue vb >>> 3 : Nat) : Int) < MinValidNumber) := by
    simp only [MinValidNumber]; omega
  simp only [h1, if_false, DecodeTag, h2, h3]

/-- Whatever `encodeFieldValue` does on a sink that never fails, it only appends. -/
theorem encodeFieldValue_appends (enc : Encoder) (typ : Nat) (b : Slice)
    (hq : enc.w.quota = none) (hd : 0 ≤ enc.indent) :
    ∃ t, (enc.encodeFieldValue typ b).1.w.data = enc.w.data ++ t := by
  rcases hdv : enc.decodeValue typ b.elems with ⟨enc2, r⟩
  have hs := decodeValue_sink enc typ b.elems
  rw [hdv] at hs
  simp only at hs
  cases r with
  | error f =>
    rw [encodeFieldValue_err enc enc2 typ b f hq hd hdv]
    exact ⟨indentText enc.indent, by simp [hs]⟩
  | ok p =>
    rcases p with ⟨n, val⟩
    rw [encodeFieldValue_ok enc enc2 typ b n val hq hd hdv]
    exact ⟨valueLine enc.indent (b.elems.take n.toNat) val, by simp [hs]⟩

theorem WellFormedVarint_length (vb : List Byte) (h : WellFormedVarint vb) :
    1 ≤ vb.length ∧ vb.length ≤ 10 := by
  obtain ⟨h1, _, _, h4, _⟩ := h
  exact ⟨List.length_pos.mpr h1, h4⟩

theorem decodeValue_varint (enc : Encoder) (vb rest : List Byte) (hwf : WellFormedVarint vb) :
    enc.decodeValue VarintType (vb ++ rest) =
      (enc, .ok ((vb.length : Int), decimal (varintValue vb))) := by
  have h1 : ¬ ((vb.length : Int) < 0) := by omega
  simp only [Encoder.decodeValue, if_true, ConsumeVarint_spec vb rest hwf, h1, if_false]

theorem ConsumeFixed32_spec (b0 b1 b2 b3 : Byte) (rest : List Byte) :
    ConsumeFixed32 (b0 :: b1 :: b2 :: b3 :: rest) =
      (b0.val + 256 * b1.val + 65536 * b2.val + 16777216 * b3.val, 4) := by
  have hlen : ¬ ((b0 :: b1 :: b2 :: b3 :: rest).length < 4) := by
    simp only [List.length_cons]; omega
  have hv : leOr 0 [b0, b1, b2, b3]
      = b0.val + 256 * b1.val + 65536 * b2.val + 16777216 * b3.val := by
    rw [leOr_eq]; simp only [leValue]; ring
  unfold ConsumeFixed32
  rw [if_neg hlen]
  simp only [List.take_succ_cons, List.take_zero, hv]

theorem ConsumeFixed64_spec (b0 b1 b2 b3 b4 b5 b6 b7 : Byte) (rest : List Byte) :
    ConsumeFixed64 (b0 :: b1 :: b2 :: b3 :: b4 :: b5 :: b6 :: b7 :: rest) =
      (leValue [b0, b1, b2, b3, b4, b5, b6, b7], 8) := by
  have hlen : ¬ ((b0 :: b1 :: b2 :: b3 :: b4 :: b5 :: b6 :: b7 :: rest).length < 8) := by
    simp only [List.length_cons]; omega
  have hv : leOr 0 [b0, b1, b2, b3, b4, b5, b6, b7]
      = leValue [b0, b1, b2, b3, b4, b5, b6, b7] := by
    rw [leOr_eq]; simp
  unfold ConsumeFixed64
  rw [if_neg hlen]
  simp only [List.take_succ_cons, List.take_zero, hv]

theorem decodeValue_fixed32 (enc : Encoder) (b0 b1 b2 b3 : Byte) (rest : List Byte) :
    enc.decodeValue Fixed32Type (b0 :: b1 :: b2 :: b3 :: rest) =
      (enc, .ok (4, decimal (b0.val + 256 * b1.val + 65536 * b2.val + 16777216 * b3.val))) := by
  simp [Encoder.decodeValue, VarintType, Fixed32Type, ConsumeFixed32_spec]

theorem decodeValue_fixed64 (enc : Encoder) (b0 b1 b2 b3 b4 b5 b6 b7 : Byte)
    (rest : List Byte) :
    enc.decodeValue Fixed64Type (b0 :: b1 :: b2 :: b3 :: b4 :: b5 :: b6 :: b7 :: rest) =
      (enc, .ok (8, decimal (leValue [b0, b1, b2, b3, b4, b5, b6, b7]))) := by
  simp [Encoder.decodeValue, VarintType, Fixed32Type, Fixed64Type, ConsumeFixed64_spec]

theorem ConsumeBytes_spec (pb payload rest : List Byte) (hwf : WellFormedVarint pb)
    (hL : varintValue pb = payload.length) :
    ConsumeBytes (pb ++ payload ++ rest) =
      (payload, ((pb.length + payload.length : Nat) : Int)) := by
  unfold ConsumeBytes
  rw [List.append_assoc, ConsumeVarint_spec pb (payload ++ rest) hwf]
  have h1 : ¬ ((pb.length : Int) < 0) := by omega
  have h2 : ¬ (varintValue pb > (List.drop ((pb.length : Int)).toNat (pb ++ (payload ++ rest))).length) := by
    simp [hL]
  simp only [h1, if_false, h2]
  simp [hL]

theorem decodeValue_bytes (enc : Encoder) (pb payload rest : List Byte)
    (hwf : WellFormedVarint pb) (hL : varintValue pb = payload.length) :
    enc.decodeValue BytesType (pb ++ payload ++ rest) =
      (enc, .ok (((pb.length + payload.length : Nat) : Int),
        if utf8Valid payload then payload else ascii "<non-utf8 byte array>")) := by
  have h1 : ¬ (((pb.length + payload.length : Nat) : Int) < 0) := by omega
  simp only [Encoder.decodeValue, ConsumeBytes_spec pb payload rest hwf hL, h1, if_false]
  simp only [VarintType, Fixed32Type, Fixed64Type, BytesType]
  by_cases hu : utf8Valid payload = true <;> simp [hu]

theorem encodeFieldValue_bytes (enc : Encoder) (b : Slice) (pb payload rest : List Byte)
    (hq : enc.w.quota = none) (hd : 0 ≤ enc.indent)
    (hb : b.elems = pb ++ payload ++ rest) (hwf : WellFormedVarint pb)
    (hL : varintValue pb = payload.length) :
    enc.encodeFieldValue BytesType b =
      (enc.emit (valueLine enc.indent (pb ++ payload)
        (if utf8Valid payload then payload else ascii "<non-utf8 byte array>")),
        .ok ((pb.length + payload.length : Nat) : Int)) := by
  have hdv := decodeValue_bytes enc pb payload rest hwf hL
  rw [← hb] at hdv
  have htake : b.elems.take (((pb.length + payload.length : Nat) : Int)).toNat
      = pb ++ payload := by
    rw [hb, Int.toNat_ofNat, ← List.length_append, List.take_left']
    rfl
  rw [encodeFieldValue_ok enc enc BytesType b _ _ hq hd hdv, htake]

theorem consumeVarintFrom_truncated (l : List Byte) : ∀ (i v : Nat),
    (∀ y ∈ l, 128 ≤ y.val) → i + l.length < 10 →
    consumeVarintFrom i v l = (0, errCodeTruncated) := by
  induction l with
  | nil => intro i v _ _; rfl
  | cons y ys ih =>
    intro i v hall hlen
    simp only [List.length_cons] at hlen
    have hy : ¬ (y.val < 0x80) := by
      have := hall y (by simp); omega
    have hi : i < 9 := by omega
    rw [consumeVarintFrom_cons]
    simp only [hi, if_true, hy, if_false]
    exact ih _ _ (fun w hw => hall w (by simp [hw])) (by omega)

theorem ConsumeVarint_truncated (l : List Byte) (h : TruncatedVarint l) :
    ConsumeVarint l = (0, errCodeTruncated) :=
  consumeVarintFrom_truncated l 0 0 h.2 (by have := h.1; omega)

theorem consumeVarintFrom_overlong (pre : List Byte) : ∀ (i v : Nat) (y : Byte)
    (rest : List Byte), (∀ w ∈ pre, 128 ≤ w.val) → i + pre.length = 9 → 2 ≤ y.val →
    consumeVarintFrom i v (pre ++ y :: rest) = (0, errCodeOverflow) := by
  induction pre with
  | nil =>
    intro i v y rest _ hlen hy
    simp only [List.length_nil, Nat.add_zero] at hlen
    have hi : ¬ (i < 9) := by omega
    have hy2 : ¬ (y.val < 2) := by omega
    rw [List.nil_append, consumeVarintFrom_cons]
    simp only [hi, if_false, hy2]
  | cons p ps ih =>
    intro i v y rest hall hlen hy
    simp only [List.length_cons] at hlen
    have hp : ¬ (p.val < 0x80) := by
      have := hall p (by simp); omega
    have hi : i < 9 := by omega
    rw [List.cons_append, consumeVarintFrom_cons]
    simp only [hi, if_true, hp, if_false]
    exact ih _ _ y rest (fun w hw => hall w (by simp [hw])) (by omega) hy

theorem ConsumeVarint_overlong (l : List Byte) (h : OverlongVarint l) :
    ConsumeVarint l = (0, errCodeOverflow) := by
  obtain ⟨hlen, hpre, hten⟩ := h
  have hd : l.drop 9 ≠ [] := by
    intro hnil
    have := congrArg List.length hnil
    simp only [List.length_drop, List.length_nil] at this
    omega
  obtain ⟨y, rest, hyr⟩ := List.exists_cons_of_ne_nil hd
  have hl : l = l.take 9 ++ y :: rest := by rw [← hyr, List.take_append_drop]
  have hy : 2 ≤ y.val := hten y (by rw [hyr]; simp)
  have h9 : (l.take 9).length = 9 := by rw [List.length_take]; omega
  unfold ConsumeVarint
  rw [hl]
  exact consumeVarintFrom_overlong (l.take 9) 0 0 y rest hpre (by omega) hy

theorem ConsumeTag_of_varint_error (l : List Byte) (h : (ConsumeVarint l).2 < 0) :
    (ConsumeTag l).2.2 < 0 := by
  unfold ConsumeTag
  rcases hc : ConsumeVarint l with ⟨v, n⟩
  rw [hc] at h
  simp only at h
  simp [h]

/-- At a malformed tag, on a sink that never fails and at depth `d >= 0`, `Encode`
returns the unknown-tag error when the backing array holds at least four bytes, and
panics on the slice expression `b[:4]` otherwise. -/
theorem Encode_malformed_tag (enc : Encoder) (b : Slice) (hq : enc.w.quota = none)
    (hd : 0 ≤ enc.indent) (hne : 0 < b.len)
    (hbad : TruncatedVarint b.elems ∨ OverlongVarint b.elems) :
    enc.Encode b = some (
      if 4 ≤ b.cap then
        (enc.emit (indentText enc.indent ++ ascii "// error: unknown tag: "
          ++ hexBytes ((b.elems ++ b.spare).take 4)), .error (.err .unknownTag))
      else
        (enc.emit (indentText enc.indent ++ ascii "// error: unknown tag: "),
          .error (.panic .sliceBounds))) := by
  have hv : (ConsumeVarint b.elems).2 < 0 := by
    rcases hbad with h | h
    · rw [ConsumeVarint_truncated _ h]; decide
    · rw [ConsumeVarint_overlong _ h]; decide
  have ht := ConsumeTag_of_varint_error _ hv
  have hf := encodeField_unknownTag enc b hq hd ht
  by_cases h4 : 4 ≤ b.cap
  · simp only [h4, if_true] at hf ⊢
    exact Encode_fail enc b _ _ hne hf
  · simp only [h4, if_false] at hf ⊢
    exact Encode_fail enc b _ _ hne hf

/-- A field whose value cannot be decoded: on a sink that never fails and at depth
`d >= 0`, `Encode` writes the tag line and the indentation of the value line, and
returns the error of the value decoder. -/
theorem Encode_value_error (enc enc2 : Encoder) (b : Slice) (num : Int) (typ : Nat) (n : Int)
    (f : Fault) (hq : enc.w.quota = none) (hd : 0 ≤ enc.indent)
    (ht : ConsumeTag b.elems = (num, typ, n)) (hn : 0 ≤ n)
    (hdv : enc.decodeValue typ (b.elems.drop n.toNat) = (enc2, .error f)) :
    enc.Encode b = some (enc2.emit (tagLine enc.indent (b.elems.take n.toNat) num typ
      ++ indentText enc.indent), .error f) := by
  have hb := ConsumeTag_bounds b.elems
  rw [ht] at hb
  simp only at hb
  have hne : 0 < b.len := by simp only [Slice.len]; omega
  have hdv2 : (enc.emit (tagLine enc.indent (b.elems.take n.toNat) num typ)).decodeValue typ
      (b.elems.drop n.toNat) =
      (enc2.emit (tagLine enc.indent (b.elems.take n.toNat) num typ), .error f) := by
    rw [decodeValue_emit, hdv]
  have hfv := encodeFieldValue_err
    (enc.emit (tagLine enc.indent (b.elems.take n.toNat) num typ))
    _ typ ⟨b.elems.drop n.toNat, b.spare⟩ f (by simpa using hq) (by simpa using hd) hdv2
  have hf := encodeField_ok enc b num typ n hq hd ht hn
  rw [hfv] at hf
  simp only [emit_indent, emit_emit] at hf
  exact Encode_fail enc b _ _ hne hf

theorem decodeValue_fixed64_short (enc : Encoder) (l : List Byte) (h : l.length < 8) :
    enc.decodeValue Fixed64Type l = (enc, .error (.err .parseFixed64)) := by
  simp [Encoder.decodeValue, VarintType, Fixed32Type, Fixed64Type, ConsumeFixed64, h,
    errCodeTruncated]

theorem decodeValue_fixed32_short (enc : Encoder) (l : List Byte) (h : l.length < 4) :
    enc.decodeValue Fixed32Type l = (enc, .error (.err .parseFixed32)) := by
  simp [Encoder.decodeValue, VarintType, Fixed32Type, ConsumeFixed32, h, errCodeTruncated]

theorem decodeValue_bytes_error (enc : Encoder) (l : List Byte)
    (h : TruncatedVarint l ∨
      ∃ pb rest, l = pb ++ rest ∧ WellFormedVarint pb ∧ rest.length < varintValue pb) :
    enc.decodeValue BytesType l = (enc, .error (.err .parseBytes)) := by
  have hc : (ConsumeBytes l).2 < 0 := by
    unfold ConsumeBytes
    rcases h with h | ⟨pb, rest, rfl, hwf, hlen⟩
    · rw [ConsumeVarint_truncated _ h]
      simp [errCodeTruncated]
    · rw [ConsumeVarint_spec pb rest hwf]
      have h1 : ¬ ((pb.length : Int) < 0) := by omega
      have h2 : varintValue pb > (List.drop ((pb.length : Int)).toNat (pb ++ rest)).length := by
        simpa using hlen
      simp only [h1, if_false, h2, if_true]
      simp [errCodeTruncated]
  rcases hcb : ConsumeBytes l with ⟨v, n⟩
  rw [hcb] at hc
  simp only at hc
  simp [Encoder.decodeValue, VarintType, Fixed32Type, Fixed64Type, BytesType, hcb, hc]

theorem fieldGroups_spec (fuel : Nat) : ∀ (enc enc' : Encoder) (b : Slice),
    Encoder.EncodeLoop fuel enc b = some (enc', .ok ()) →
    ((enc.fieldGroups fuel b).map (fun g => g.1 ++ g.2)).flatten = b.elems ∧
    (enc.fieldCounts fuel b).sum = (b.len : Int) ∧
    enc.fieldCounts fuel b =
      (enc.fieldGroups fuel b).map (fun g => ((g.1.length + g.2.length : Nat) : Int)) := by
  induction fuel with
  | zero =>
    intro enc enc' b h
    rw [EncodeLoop_unfold] at h
    by_cases hpos : b.len > 0
    · simp [hpos] at h
    · have : b.elems = [] := by
        simp only [Slice.len] at hpos
        exact List.length_eq_zero.mp (by omega)
      simp [Encoder.fieldGroups, Encoder.fieldCounts, this, Slice.len]
  | succ k ih =>
    intro enc enc' b h
    rw [EncodeLoop_unfold] at h
    by_cases hpos : b.len > 0
    · simp only [hpos, if_true] at h
      rcases hf : enc.encodeField b with ⟨enc1, r⟩
      rw [hf] at h
      cases r with
      | error f => simp at h
      | ok c =>
        have hc := encodeField_count enc b enc1 c hf
        have hc0 : 0 ≤ c := by omega
        simp only [sliceFrom_ok b c hc0 hc.2.2] at h
        obtain ⟨ih1, ih2, ih3⟩ := ih enc1 enc' _ h
        simp only [Encoder.fieldGroups, Encoder.fieldCounts, hpos, if_true, hf,
          sliceFrom_ok b c hc0 hc.2.2, List.map_cons, List.flatten_cons, List.sum_cons]
        rw [ih1, ih2, ← ih3]
        have hlen : c.toNat ≤ b.elems.length := by
          simp only [Slice.len] at hc; omega
        generalize hn : (ConsumeTag b.elems).2.2 = n at hc ⊢
        have hsplit : List.take n.toNat b.elems ++ List.take (c - n).toNat (List.drop n.toNat b.elems)
            = List.take c.toNat b.elems := by
          have e : c.toNat = n.toNat + (c - n).toNat := by omega
          rw [e, List.take_add]
        refine ⟨?_, ?_, ?_⟩
        · rw [hsplit, List.take_append_drop]
        · simp only [Slice.len, List.length_drop] at hc ⊢
          omega
        · congr 1
          simp only [Slice.len] at hc
          simp only [List.length_take, List.length_drop]
          omega
    · have : b.elems = [] := by
        simp only [Slice.len] at hpos
        exact List.length_eq_zero.mp (by omega)
      simp [Encoder.fieldGroups, Encoder.fieldCounts, this, Slice.len]

/-- At negative depth `encodeField` panics in its first `writeIndent`, before the tag
is read: `encodeFieldValue` is only ever reached at depth `d >= 0`. -/
theorem encodeField_negative_depth (enc : Encoder) (b : Slice) (h : enc.indent < 0) :
    enc.encodeField b = (enc, .error (.panic .negativeRepeat)) := by
  have h2 : 2 * enc.indent < 0 := by omega
  simp [Encoder.encodeField, Encoder.writeIndent, h2]

/-! ## The claims -/

/-- C1. When `Encode(b)` returns nil, `b` is the concatenation, in order, of the byte
groups (tag bytes followed by value bytes) of the fields it processed: the counts
returned by the successive `encodeField` calls are the lengths of these groups and
add up to `len(b)`.  `Encode` of the empty input returns nil and leaves the encoder
and its sink as they were.  (This holds for every sink, failing or not.) -/
theorem C1_encode_consumes_exactly_the_input (enc enc' : Encoder) (b : Slice)
    (h : enc.Encode b = some (enc', .ok ())) :
    ((enc.fieldGroups b.len b).map (fun g => g.1 ++ g.2)).flatten = b.elems ∧
    (enc.fieldCounts b.len b).sum = (b.len : Int) ∧
    enc.fieldCounts b.len b =
      (enc.fieldGroups b.len b).map (fun g => ((g.1.length + g.2.length : Nat) : Int)) ∧
    (∀ (e : Encoder) (spare : List Byte),
      e.Encode { elems := [], spare := spare } = some (e, .ok ())) := by
  obtain ⟨h1, h2, h3⟩ := fieldGroups_spec b.len enc enc' b h
  exact ⟨h1, h2, h3, fun e spare => Encode_nil e _ rfl⟩

theorem C1_witness :
    (NewEncoder emptySink).Encode ⟨[0x08, 0x96, 0x01, 0x0D, 0x2A, 0, 0, 0], []⟩ =
      some (⟨⟨ascii "08 // field id=1 type=Varint\n96 01 // 150\n0d // field id=1 type=Fixed32\n2a 00 00 00 // 42\n", none⟩, 0⟩, .ok ()) ∧
    (NewEncoder emptySink).fieldGroups 8 ⟨[0x08, 0x96, 0x01, 0x0D, 0x2A, 0, 0, 0], []⟩
      = [([0x08], [0x96, 0x01]), ([0x0D], [0x2A, 0, 0, 0])] ∧
    (NewEncoder emptySink).fieldCounts 8 ⟨[0x08, 0x96, 0x01, 0x0D, 0x2A, 0, 0, 0], []⟩
      = [3, 5] ∧
    ((NewEncoder emptySink).fieldCounts
        (Slice.len ⟨[0x08, 0x96, 0x01, 0x0D, 0x2A, 0, 0, 0], []⟩)
        ⟨[0x08, 0x96, 0x01, 0x0D, 0x2A, 0, 0, 0], []⟩).sum
      = ((Slice.len ⟨[0x08, 0x96, 0x01, 0x0D, 0x2A, 0, 0, 0], []⟩ : Nat) : Int) :=
  ⟨by decide!, by decide!, by decide!,
    (C1_encode_consumes_exactly_the_input (NewEncoder emptySink)
      ⟨⟨ascii "08 // field id=1 type=Varint\n96 01 // 150\n0d // field id=1 type=Fixed32\n2a 00 00 00 // 42\n", none⟩, 0⟩
      ⟨[0x08, 0x96, 0x01, 0x0D, 0x2A, 0, 0, 0], []⟩ (by decide!)).2.1⟩

/-- C2 (amended). For every input that begins with a well-formed varint of value `x`
whose field number `x >> 3` lies between 1 and `2^31 - 1`, the tag reader succeeds,
consumes exactly the bytes of that varint and reports field number `x >> 3` and wire
type `x & 7`; on a sink that never fails, at depth `d >= 0`, `encodeField` writes the
indentation, the hex of exactly these bytes and ` // field id=<decimal of x >> 3>
type=<name>` before anything else. -/
theorem C2_tag_reader_accepts_valid_field_numbers (enc : Encoder) (b : Slice)
    (vb rest : List Byte) (hq : enc.w.quota = none) (hd : 0 ≤ enc.indent)
    (hb : b.elems = vb ++ rest) (hwf : WellFormedVarint vb)
    (hlo : 1 ≤ varintValue vb >>> 3) (hhi : varintValue vb >>> 3 ≤ 2147483647) :
    ConsumeTag b.elems =
      (((varintValue vb >>> 3 : Nat) : Int), varintValue vb &&& 7, (vb.length : Int)) ∧
    ∃ t, (enc.encodeField b).1.w.data =
      enc.w.data ++ (indentText enc.indent ++ hexBytes vb ++ ascii " // field id="
        ++ decimal (varintValue vb >>> 3) ++ ascii " type="
        ++ ascii (typeToString (varintValue vb &&& 7)) ++ ascii "\n") ++ t := by
  have ht := ConsumeTag_spec vb rest hwf hlo hhi
  rw [← hb] at ht
  refine ⟨ht, ?_⟩
  rw [encodeField_ok enc b _ _ _ hq hd ht (by omega)]
  have htake : b.elems.take ((vb.length : Int)).toNat = vb := by
    rw [hb]; simp
  obtain ⟨t, ht2⟩ := encodeFieldValue_appends
    (enc.emit (tagLine enc.indent (b.elems.take ((vb.length : Int)).toNat)
      ((varintValue vb >>> 3 : Nat) : Int) (varintValue vb &&& 7)))
    (varintValue vb &&& 7) ⟨b.elems.drop ((vb.length : Int)).toNat, b.spare⟩
    (by simpa using hq) (by simpa using hd)
  refine ⟨t, ?_⟩
  generalize hr : Encoder.encodeFieldValue _ (varintValue vb &&& 7) _ = r at ht2
  rcases r with ⟨e, (f | m)⟩ <;>
  · simp only at ht2 ⊢
    rw [ht2, htake]
    simp [tagLine, List.append_assoc]

theorem C2_witness :
    (ConsumeTag [0x08, 0x96, 0x01] = (1, 0, 1)) ∧
    ∃ t, ((NewEncoder emptySink).encodeField ⟨[0x08, 0x96, 0x01], []⟩).1.w.data =
      ascii "08 // field id=1 type=Varint\n" ++ t := by
  have h := C2_tag_reader_accepts_valid_field_numbers (NewEncoder emptySink)
    ⟨[0x08, 0x96, 0x01], []⟩ [0x08] [0x96, 0x01] rfl (by decide!) rfl (by decide!)
    (by decide!) (by decide!)
  refine ⟨by decide!, ?_⟩
  obtain ⟨t, ht⟩ := h.2
  exact ⟨t, by rw [ht]; rfl⟩

/-- C2 (as stated) fails: the one-byte varint `00` is well formed with value 0, yet
the tag reader rejects it (field number 0) and `encodeField` returns the
unknown-tag error; likewise the five-byte varint of value `2^34`, whose field
number `2^31` is above the largest one accepted. -/
theorem C2_counterexample :
    WellFormedVarint [0x00] ∧ varintValue [0x00] = 0 ∧
    ConsumeTag [0x00, 0x00, 0x00, 0x00] = (0, 0, errCodeFieldNumber) ∧
    ((NewEncoder emptySink).encodeField ⟨[0x00, 0x00, 0x00, 0x00], []⟩).2
      = .error (.err .unknownTag) ∧
    WellFormedVarint [0x80, 0x80, 0x80, 0x80, 0x40] ∧
    varintValue [0x80, 0x80, 0x80, 0x80, 0x40] >>> 3 = 2147483648 ∧
    ConsumeTag [0x80, 0x80, 0x80, 0x80, 0x40] = (0, 0, errCodeFieldNumber) := by
  exact ⟨by decide!, by decide!, by decide!, by decide!, by decide!, by decide!, by decide!⟩

/-- C3. For a field of wire type Varint whose value bytes begin with a well-formed
varint `vb` of value `v`, `encodeFieldValue` (reached at depth `d >= 0`, sink never
failing) consumes exactly `len(vb)` bytes, between 1 and 10, and writes the value
line with the hex of `vb` and the decimal of `v`, where `v < 2^64`.  On a fresh
encoder, `Encode` of `08 96 01` returns nil and writes exactly the two lines
`08 // field id=1 type=Varint` and `96 01 // 150`. -/
theorem C3_varint_value_is_rendered_in_decimal (enc : Encoder) (b : Slice)
    (vb rest : List Byte) (hq : enc.w.quota = none) (hd : 0 ≤ enc.indent)
    (hb : b.elems = vb ++ rest) (hwf : WellFormedVarint vb) :
    enc.encodeFieldValue VarintType b =
      (enc.emit (indentText enc.indent ++ hexBytes vb ++ ascii " // "
        ++ decimal (varintValue vb) ++ ascii "\n"), .ok (vb.length : Int)) ∧
    1 ≤ vb.length ∧ vb.length ≤ 10 ∧ varintValue vb < 2 ^ 64 ∧
    (NewEncoder emptySink).Encode ⟨[0x08, 0x96, 0x01], []⟩ =
      some (⟨⟨ascii "08 // field id=1 type=Varint\n96 01 // 150\n", none⟩, 0⟩, .ok ()) := by
  have hdv := decodeValue_varint enc vb rest hwf
  rw [← hb] at hdv
  have htake : b.elems.take ((vb.length : Int)).toNat = vb := by rw [hb]; simp
  refine ⟨?_, (WellFormedVarint_length vb hwf).1, (WellFormedVarint_length vb hwf).2,
    hwf.2.2.2.2, by decide!⟩
  rw [encodeFieldValue_ok enc enc VarintType b _ _ hq hd hdv, htake]
  rfl

theorem C3_witness :
    (NewEncoder emptySink).encodeFieldValue VarintType ⟨[0x96, 0x01, 0x08, 0x01], []⟩ =
      (⟨⟨ascii "96 01 // 150\n", none⟩, 0⟩, .ok 2) :=
  (C3_varint_value_is_rendered_in_decimal (NewEncoder emptySink)
    ⟨[0x96, 0x01, 0x08, 0x01], []⟩ [0x96, 0x01] [0x08, 0x01] rfl (by decide!) rfl
    (by decide!)).1.trans (by decide!)

/-- C4. For a field of wire type Fixed32 followed by at least four bytes
`b0 b1 b2 b3`, `encodeFieldValue` (reached at depth `d >= 0`, sink never failing)
consumes exactly 4 bytes and writes the value line with their hex and the decimal of
the little-endian value `b0 + 256*b1 + 65536*b2 + 16777216*b3`, which is below
`2^32`.  On a fresh encoder, `Encode` of `0D 2A 00 00 00` returns nil and writes
exactly the two lines `0d // field id=1 type=Fixed32` and `2a 00 00 00 // 42`. -/
theorem C4_fixed32_value_is_little_endian (enc : Encoder) (b : Slice)
    (b0 b1 b2 b3 : Byte) (rest : List Byte) (hq : enc.w.quota = none)
    (hd : 0 ≤ enc.indent) (hb : b.elems = b0 :: b1 :: b2 :: b3 :: rest) :
    enc.encodeFieldValue Fixed32Type b =
      (enc.emit (indentText enc.indent ++ hexBytes [b0, b1, b2, b3] ++ ascii " // "
        ++ decimal (b0.val + 256 * b1.val + 65536 * b2.val + 16777216 * b3.val)
        ++ ascii "\n"), .ok 4) ∧
    b0.val + 256 * b1.val + 65536 * b2.val + 16777216 * b3.val < 2 ^ 32 ∧
    (NewEncoder emptySink).Encode ⟨[0x0D, 0x2A, 0x00, 0x00, 0x00], []⟩ =
      some (⟨⟨ascii "0d // field id=1 type=Fixed32\n2a 00 00 00 // 42\n", none⟩, 0⟩,
        .ok ()) := by
  have hdv := decodeValue_fixed32 enc b0 b1 b2 b3 rest
  rw [← hb] at hdv
  have htake : b.elems.take ((4 : Int)).toNat = [b0, b1, b2, b3] := by rw [hb]; rfl
  refine ⟨?_, ?_, by decide!⟩
  · rw [encodeFieldValue_ok enc enc Fixed32Type b _ _ hq hd hdv, htake]
    rfl
  · have h0 := b0.isLt
    have h1 := b1.isLt
    have h2 := b2.isLt
    have h3 := b3.isLt
    norm_num
    omega

theorem C4_witness :
    (NewEncoder emptySink).encodeFieldValue Fixed32Type ⟨[0x2A, 0x01, 0x00, 0x00, 0x08], []⟩ =
      (⟨⟨ascii "2a 01 00 00 // 298\n", none⟩, 0⟩, .ok 4) :=
  (C4_fixed32_value_is_little_endian (NewEncoder emptySink)
    ⟨[0x2A, 0x01, 0x00, 0x00, 0x08], []⟩ 0x2A 0x01 0x00 0x00 [0x08] rfl (by decide!)
    rfl).1.trans (by decide!)

/-- C5. For a field of wire type LengthDelimited whose value bytes are a well-formed
varint length prefix `pb` of value `L` followed by at least `L` bytes,
`encodeFieldValue` (reached at depth `d >= 0`, sink never failing) consumes exactly
`len(pb) + L` bytes and echoes prefix and payload together as the value hex; when the
payload is valid UTF-8 the rendered value is exactly the payload.  On a fresh
encoder, `Encode` of `12 05 68 65 6C 6C 6F` returns nil and the value line is
`05 68 65 6c 6c 6f // hello`. -/
theorem C5_length_delimited_text_value (enc : Encoder) (b : Slice)
    (pb payload rest : List Byte) (hq : enc.w.quota = none) (hd : 0 ≤ enc.indent)
    (hb : b.elems = pb ++ payload ++ rest) (hwf : WellFormedVarint pb)
    (hL : varintValue pb = payload.length) :
    (enc.encodeFieldValue BytesType b).2 = .ok ((pb.length + payload.length : Nat) : Int) ∧
    (∃ val, (enc.encodeFieldValue BytesType b).1 =
      enc.emit (indentText enc.indent ++ hexBytes (pb ++ payload) ++ ascii " // " ++ val
        ++ ascii "\n")) ∧
    (utf8Valid payload = true →
      (enc.encodeFieldValue BytesType b).1 =
        enc.emit (indentText enc.indent ++ hexBytes (pb ++ payload) ++ ascii " // "
          ++ payload ++ ascii "\n")) ∧
    (NewEncoder emptySink).Encode ⟨[0x12, 0x05, 0x68, 0x65, 0x6C, 0x6C, 0x6F], []⟩ =
      some (⟨⟨ascii "12 // field id=2 type=Bytes\n" ++ ascii "05 68 65 6c 6c 6f // hello\n",
        none⟩, 0⟩, .ok ()) := by
  rw [encodeFieldValue_bytes enc b pb payload rest hq hd hb hwf hL]
  refine ⟨rfl, ⟨_, rfl⟩, ?_, by decide!⟩
  intro hu
  simp only [hu, if_true]
  rfl

theorem C5_witness :
    (NewEncoder emptySink).encodeFieldValue BytesType
        ⟨[0x02, 0xC3, 0xA9, 0x08, 0x01], []⟩ =
      (⟨⟨ascii "02 c3 a9 // " ++ [0xC3, 0xA9] ++ ascii "\n", none⟩, 0⟩, .ok 3) := by
  have h := C5_length_delimited_text_value (NewEncoder emptySink)
    ⟨[0x02, 0xC3, 0xA9, 0x08, 0x01], []⟩ [0x02] [0xC3, 0xA9] [0x08, 0x01] rfl (by decide!)
    rfl (by decide!) (by decide!)
  exact Prod.ext ((h.2.2.1 (by decide!)).trans (by decide!)) (h.1.trans (by decide!))

/-- C6. A complete LengthDelimited field whose payload is not valid UTF-8 does not
fail: `encodeFieldValue` consumes prefix and payload and renders the fixed
placeholder `<non-utf8 byte array>`, `encodeField` returns the length of the whole
field, and `Encode` goes on with the bytes after the field (sink never failing, depth
`d >= 0`).  On a fresh encoder the field `12 01 FF` renders the placeholder and
`Encode` returns nil. -/
theorem C6_non_utf8_payload_renders_placeholder (enc : Encoder) (b : Slice) (num n : Int)
    (pb payload rest : List Byte) (hq : enc.w.quota = none) (hd : 0 ≤ enc.indent)
    (ht : ConsumeTag b.elems = (num, BytesType, n)) (hn : 0 ≤ n)
    (hv : b.elems.drop n.toNat = pb ++ payload ++ rest) (hwf : WellFormedVarint pb)
    (hL : varintValue pb = payload.length) (hu : utf8Valid payload = false) :
    (enc.emit (tagLine enc.indent (b.elems.take n.toNat) num BytesType)).encodeFieldValue
        BytesType ⟨b.elems.drop n.toNat, b.spare⟩ =
      ((enc.emit (tagLine enc.indent (b.elems.take n.toNat) num BytesType)).emit
        (indentText enc.indent ++ hexBytes (pb ++ payload) ++ ascii " // "
          ++ ascii "<non-utf8 byte array>" ++ ascii "\n"),
        .ok ((pb.length + payload.length : Nat) : Int)) ∧
    (enc.encodeField b).2 = .ok (n + ((pb.length + payload.length : Nat) : Int)) ∧
    enc.Encode b = (enc.encodeField b).1.Encode ⟨rest, b.spare⟩ ∧
    (NewEncoder emptySink).Encode ⟨[0x12, 0x01, 0xFF], []⟩ =
      some (⟨⟨ascii "12 // field id=2 type=Bytes\n01 ff // <non-utf8 byte array>\n",
        none⟩, 0⟩, .ok ()) := by
  have hfv := encodeFieldValue_bytes
    (enc.emit (tagLine enc.indent (b.elems.take n.toNat) num BytesType))
    ⟨b.elems.drop n.toNat, b.spare⟩ pb payload rest (by simpa using hq)
    (by simpa using hd) hv hwf hL
  simp only [hu, Bool.false_eq_true, if_false, emit_indent] at hfv
  have hf := encodeField_ok enc b num BytesType n hq hd ht hn
  rw [hfv] at hf
  simp only at hf
  refine ⟨?_, ?_, ?_, by decide!⟩
  · rw [hfv]; rfl
  · rw [hf]
  · have hstep := Encode_step enc b _ _ hf
    rw [hstep, hf]
    have hb := ConsumeTag_bounds b.elems
    rw [ht] at hb
    simp only at hb
    have hdrop : List.drop (n + ((pb.length + payload.length : Nat) : Int)).toNat b.elems
        = rest := by
      have e : (n + ((pb.length + payload.length : Nat) : Int)).toNat
          = n.toNat + (pb.length + payload.length) := by omega
      rw [e, ← List.drop_drop, hv, ← List.length_append, List.drop_left']
      rfl
    rw [hdrop]

theorem C6_witness :
    (NewEncoder emptySink).Encode ⟨[0x12, 0x02, 0xC3, 0x28, 0x08, 0x01], []⟩ =
      ((NewEncoder emptySink).encodeField ⟨[0x12, 0x02, 0xC3, 0x28, 0x08, 0x01], []⟩).1.Encode
        ⟨[0x08, 0x01], []⟩ ∧
    ((NewEncoder emptySink).encodeField ⟨[0x12, 0x02, 0xC3, 0x28, 0x08, 0x01], []⟩).1.w.data =
      ascii "12 // field id=2 type=Bytes\n02 c3 28 // <non-utf8 byte array>\n" :=
  ⟨(C6_non_utf8_payload_renders_placeholder (NewEncoder emptySink)
    ⟨[0x12, 0x02, 0xC3, 0x28, 0x08, 0x01], []⟩ 2 1 [0x02] [0xC3, 0x28] [0x08, 0x01] rfl
    (by decide!) (by decide!) (by decide!) (by decide!) (by decide!) (by decide!)
    (by decide!)).2.2.1, by decide!⟩

/-- A field of wire type Fixed64 (respectively Fixed32) that the tag reader accepts
and that is followed by fewer than 8 (respectively 4) bytes: `Encode` (sink never
failing, depth `d >= 0`) returns the error of the fixed-width decoder after the tag
line and the indentation of the value line. -/
theorem Encode_truncated_fixed_width (enc : Encoder) (b : Slice) (num : Int)
    (typ : Nat) (n : Int) (hq : enc.w.quota = none) (hd : 0 ≤ enc.indent)
    (ht : ConsumeTag b.elems = (num, typ, n)) (hn : 0 ≤ n)
    (hshort : (typ = Fixed64Type ∧ (b.elems.drop n.toNat).length < 8) ∨
      (typ = Fixed32Type ∧ (b.elems.drop n.toNat).length < 4)) :
    enc.Encode b = some (enc.emit (tagLine enc.indent (b.elems.take n.toNat) num typ
      ++ indentText enc.indent),
      .error (.err (if typ = Fixed64Type then .parseFixed64 else .parseFixed32))) := by
  rcases hshort with ⟨rfl, hlen⟩ | ⟨rfl, hlen⟩
  · simp only [if_true]
    exact Encode_value_error enc enc b num _ n _ hq hd ht hn
      (decodeValue_fixed64_short enc _ hlen)
  · have : ¬ (Fixed32Type = Fixed64Type) := by decide
    simp only [this, if_false]
    exact Encode_value_error enc enc b num _ n _ hq hd ht hn
      (decodeValue_fixed32_short enc _ hlen)

/-- A field of wire type LengthDelimited that the tag reader accepts and whose length
prefix is truncated or declares more bytes than are left: `Encode` (sink never
failing, depth `d >= 0`) returns the error of the bytes decoder after the tag line
and the indentation of the value line, whatever lies behind the end of the input. -/
theorem Encode_truncated_length_delimited (enc : Encoder) (b : Slice) (num n : Int)
    (hq : enc.w.quota = none) (hd : 0 ≤ enc.indent)
    (ht : ConsumeTag b.elems = (num, BytesType, n)) (hn : 0 ≤ n)
    (htr : TruncatedVarint (b.elems.drop n.toNat) ∨
      ∃ pb rest, b.elems.drop n.toNat = pb ++ rest ∧ WellFormedVarint pb ∧
        rest.length < varintValue pb) (spare2 : List Byte) :
    enc.Encode ⟨b.elems, spare2⟩ =
      some (enc.emit (tagLine enc.indent (b.elems.take n.toNat) num BytesType
        ++ indentText enc.indent), .error (.err .parseBytes)) :=
  Encode_value_error enc enc ⟨b.elems, spare2⟩ num _ n _ hq hd ht hn
    (decodeValue_bytes_error enc _ htr)

/-- C7 (amended). When the next tag is a well-formed varint with wire type Fixed64
(respectively Fixed32) whose field number lies between 1 and `2^31 - 1`, and fewer
than 8 (respectively 4) bytes follow it, zero bytes included, `Encode` (sink never
failing, depth `d >= 0`) returns the non-nil error of the fixed-width decoder after
the tag line and the indentation of the value line; it does not report success.  On
a fresh encoder the single Fixed64 tag byte `09` gives that error. -/
theorem C7_truncated_fixed_width_value_is_an_error (enc : Encoder) (b : Slice)
    (vb rest : List Byte) (hq : enc.w.quota = none) (hd : 0 ≤ enc.indent)
    (hb : b.elems = vb ++ rest) (hwf : WellFormedVarint vb)
    (hlo : 1 ≤ varintValue vb >>> 3) (hhi : varintValue vb >>> 3 ≤ 2147483647)
    (hshort : (varintValue vb &&& 7 = Fixed64Type ∧ rest.length < 8) ∨
      (varintValue vb &&& 7 = Fixed32Type ∧ rest.length < 4)) :
    enc.Encode b = some (enc.emit (tagLine enc.indent vb
        ((varintValue vb >>> 3 : Nat) : Int) (varintValue vb &&& 7)
      ++ indentText enc.indent),
      .error (.err (if varintValue vb &&& 7 = Fixed64Type then .parseFixed64
        else .parseFixed32))) ∧
    (∀ e, enc.Encode b ≠ some (e, .ok ())) ∧
    (NewEncoder emptySink).Encode ⟨[0x09], []⟩ =
      some (⟨⟨ascii "09 // field id=1 type=Fixed64\n", none⟩, 0⟩,
        .error (.err .parseFixed64)) := by
  have ht := ConsumeTag_spec vb rest hwf hlo hhi
  rw [← hb] at ht
  have htake : b.elems.take ((vb.length : Int)).toNat = vb := by rw [hb]; simp
  have hdrop : b.elems.drop ((vb.length : Int)).toNat = rest := by rw [hb]; simp
  have key := Encode_truncated_fixed_width enc b _ _ _ hq hd ht (by omega)
    (by rw [hdrop]; exact hshort)
  rw [htake] at key
  refine ⟨key, ?_, by decide!⟩
  rw [key]
  intro e h
  cases h

theorem C7_witness :
    (NewEncoder emptySink).Encode ⟨[0x0D, 0x2A, 0x00, 0x00], []⟩ =
      some (⟨⟨ascii "0d // field id=1 type=Fixed32\n", none⟩, 0⟩,
        .error (.err .parseFixed32)) :=
  (C7_truncated_fixed_width_value_is_an_error (NewEncoder emptySink)
    ⟨[0x0D, 0x2A, 0x00, 0x00], []⟩ [0x0D] [0x2A, 0x00, 0x00] rfl (by decide!) rfl
    (by decide!) (by decide!) (by decide!) (Or.inr ⟨by decide!, by decide!⟩)).1.trans
    (by decide!)

/-- C7 (as stated) fails: the bytes `01` and `05` are well-formed varints with wire
types Fixed64 and Fixed32, yet on `01 00 00 00` and `05 00 00 00` (three bytes after
the tag) a fresh encoder returns the unknown-tag error, not the error of the
fixed-width decoder: the tag reader rejects field number 0.  On the single byte `01`
`Encode` returns no error at all: it panics on the slice expression `b[:4]`. -/
theorem C7_counterexample :
    WellFormedVarint [0x01] ∧ varintValue [0x01] &&& 7 = Fixed64Type ∧
    (NewEncoder emptySink).Encode ⟨[0x01, 0x00, 0x00, 0x00], []⟩ =
      some (⟨⟨ascii "// error: unknown tag: 01 00 00 00", none⟩, 0⟩,
        .error (.err .unknownTag)) ∧
    WellFormedVarint [0x05] ∧ varintValue [0x05] &&& 7 = Fixed32Type ∧
    (NewEncoder emptySink).Encode ⟨[0x05, 0x00, 0x00, 0x00], []⟩ =
      some (⟨⟨ascii "// error: unknown tag: 05 00 00 00", none⟩, 0⟩,
        .error (.err .unknownTag)) ∧
    Err.unknownTag ≠ Err.parseFixed64 ∧ Err.unknownTag ≠ Err.parseFixed32 ∧
    (NewEncoder emptySink).Encode ⟨[0x01], []⟩ =
      some (⟨⟨ascii "// error: unknown tag: ", none⟩, 0⟩,
        .error (.panic .sliceBounds)) := by
  exact ⟨by decide!, by decide!, by decide!, by decide!, by decide!, by decide!,
    by decide, by decide, by decide!⟩

/-- C8 (amended). When the next tag is a well-formed varint with wire type
LengthDelimited whose field number lies between 1 and `2^31 - 1`, and the length
prefix is a truncated varint, or declares a length greater than the number of bytes
left after it, `Encode` (sink never failing, depth `d >= 0`) returns a non-nil
error, not a panic; what it wrote is the tag line and the indentation of the value
line only: no payload is rendered, and the result does not depend on the bytes
behind the end of the input (`b.spare`). -/
theorem C8_truncated_length_delimited_is_an_error (enc : Encoder) (b : Slice)
    (vb rest : List Byte) (hq : enc.w.quota = none) (hd : 0 ≤ enc.indent)
    (hb : b.elems = vb ++ rest) (hwf : WellFormedVarint vb)
    (hty : varintValue vb &&& 7 = BytesType)
    (hlo : 1 ≤ varintValue vb >>> 3) (hhi : varintValue vb >>> 3 ≤ 2147483647)
    (htr : TruncatedVarint rest ∨
      ∃ pb rest2, rest = pb ++ rest2 ∧ WellFormedVarint pb ∧
        rest2.length < varintValue pb) :
    enc.Encode b = some (enc.emit (tagLine enc.indent vb
        ((varintValue vb >>> 3 : Nat) : Int) BytesType
      ++ indentText enc.indent), .error (.err .parseBytes)) ∧
    ∀ spare2, enc.Encode ⟨b.elems, spare2⟩ = enc.Encode b := by
  have ht := ConsumeTag_spec vb rest hwf hlo hhi
  rw [← hb, hty] at ht
  have htake : b.elems.take ((vb.length : Int)).toNat = vb := by rw [hb]; simp
  have hdrop : b.elems.drop ((vb.length : Int)).toNat = rest := by rw [hb]; simp
  have key := Encode_truncated_length_delimited enc b _ _ hq hd ht (by omega)
    (by rw [hdrop]; exact htr)
  rw [htake] at key
  have h1 := key b.spare
  exact ⟨h1, fun spare2 => (key spare2).trans h1.symm⟩

theorem C8_witness :
    (NewEncoder emptySink).Encode ⟨[0x12, 0x05, 0x68, 0x65], []⟩ =
      some (⟨⟨ascii "12 // field id=2 type=Bytes\n", none⟩, 0⟩, .error (.err .parseBytes)) :=
  (C8_truncated_length_delimited_is_an_error (NewEncoder emptySink)
    ⟨[0x12, 0x05, 0x68, 0x65], []⟩ [0x12] [0x05, 0x68, 0x65] rfl (by decide!) rfl
    (by decide!) (by decide!) (by decide!) (by decide!)
    (Or.inr ⟨[0x05], [0x68, 0x65], by decide!, by decide!, by decide!⟩)).1.trans (by decide!)

/-- C8 (as stated) fails: the byte `02` is a well-formed varint with wire type
LengthDelimited, and in `02 05 41 42` the length prefix `05` declares more bytes
than the two that are left; a fresh encoder takes the unknown-tag path (the tag
reader rejects field number 0) and dumps the bytes `41 42` in hex.  On the
three-byte input `02 05 41` the dump `b[:4]` reaches behind the end of the input:
with one spare byte `99` in the backing array that byte is read and written, and
with none `Encode` returns no error at all but panics. -/
theorem C8_counterexample :
    WellFormedVarint [0x02] ∧ varintValue [0x02] &&& 7 = BytesType ∧
    WellFormedVarint [0x05] ∧ ([0x41, 0x42] : List Byte).length < varintValue [0x05] ∧
    (NewEncoder emptySink).Encode ⟨[0x02, 0x05, 0x41, 0x42], []⟩ =
      some (⟨⟨ascii "// error: unknown tag: 02 05 41 42", none⟩, 0⟩,
        .error (.err .unknownTag)) ∧
    (NewEncoder emptySink).Encode ⟨[0x02, 0x05, 0x41], [0x99]⟩ =
      some (⟨⟨ascii "// error: unknown tag: 02 05 41 99", none⟩, 0⟩,
        .error (.err .unknownTag)) ∧
    (NewEncoder emptySink).Encode ⟨[0x02, 0x05, 0x41], []⟩ =
      some (⟨⟨ascii "// error: unknown tag: ", none⟩, 0⟩,
        .error (.panic .sliceBounds)) ∧
    (NewEncoder emptySink).Encode ⟨[0x02, 0x05, 0x41], [0x99]⟩ ≠
      (NewEncoder emptySink).Encode ⟨[0x02, 0x05, 0x41], []⟩ := by
  exact ⟨by decide!, by decide!, by decide!, by decide!, by decide!, by decide!,
    by decide!, by decide!⟩

/-- C9 (amended). When the next tag is a well-formed varint whose low 3 bits are 6 or 7
and whose field number lies between 1 and `2^31 - 1`, whatever bytes follow,
`Encode` (sink never failing, depth `d >= 0`) returns the invalid-type error, which
is none of the errors of the value decoders; it wrote the tag line and the
indentation of the value line only: no value hex bytes and no value comment. -/
theorem C9_unknown_wire_type_is_an_error (enc : Encoder) (b : Slice) (vb rest : List Byte)
    (hq : enc.w.quota = none) (hd : 0 ≤ enc.indent)
    (hb : b.elems = vb ++ rest) (hwf : WellFormedVarint vb)
    (h67 : varintValue vb &&& 7 = 6 ∨ varintValue vb &&& 7 = 7)
    (hlo : 1 ≤ varintValue vb >>> 3) (hhi : varintValue vb >>> 3 ≤ 2147483647) :
    enc.Encode b = some (enc.emit (tagLine enc.indent vb ((varintValue vb >>> 3 : Nat) : Int)
        (varintValue vb &&& 7) ++ indentText enc.indent),
      .error (.err (.invalidType (varintValue vb &&& 7)))) ∧
    (∀ e ∈ [Err.parseVarint, Err.parseFixed32, Err.parseFixed64, Err.parseBytes,
        Err.unknownTag, Err.sink], Err.invalidType (varintValue vb &&& 7) ≠ e) := by
  have ht := ConsumeTag_spec vb rest hwf hlo hhi
  rw [← hb] at ht
  have hdv : enc.decodeValue (varintValue vb &&& 7)
      (b.elems.drop ((vb.length : Int)).toNat) =
      (enc, .error (.err (.invalidType (varintValue vb &&& 7)))) := by
    rcases h67 with h | h <;> rw [h] <;>
      simp [Encoder.decodeValue, VarintType, Fixed32Type, Fixed64Type, BytesType,
        StartGroupType, EndGroupType]
  have htake : b.elems.take ((vb.length : Int)).toNat = vb := by rw [hb]; simp
  have := Encode_value_error enc enc b _ _ _ _ hq hd ht (by omega) hdv
  rw [htake] at this
  refine ⟨this, ?_⟩
  intro e he
  simp only [List.mem_cons, List.mem_singleton, List.not_mem_nil, or_false] at he
  rcases he with rfl | rfl | rfl | rfl | rfl | rfl <;> simp

theorem C9_witness :
    (NewEncoder emptySink).Encode ⟨[0x0E, 0x01, 0x02], []⟩ =
      some (⟨⟨ascii "0e // field id=1 type=<Unknown>\n", none⟩, 0⟩,
        .error (.err (.invalidType 6))) :=
  (C9_unknown_wire_type_is_an_error (NewEncoder emptySink) ⟨[0x0E, 0x01, 0x02], []⟩
    [0x0E] [0x01, 0x02] rfl (by decide!) rfl (by decide!) (by decide!) (by decide!)
    (by decide!)).1.trans (by decide!)

/-- C9 (as stated) fails: the bytes `06` and `07` are well-formed varints whose low 3
bits are 6 and 7, yet on `06 00 00 00` and `07 00 00 00` a fresh encoder returns the
unknown-tag error (the tag reader rejects field number 0), not the invalid-type
error. -/
theorem C9_counterexample :
    WellFormedVarint [0x06] ∧ varintValue [0x06] &&& 7 = 6 ∧
    (NewEncoder emptySink).Encode ⟨[0x06, 0x00, 0x00, 0x00], []⟩ =
      some (⟨⟨ascii "// error: unknown tag: 06 00 00 00", none⟩, 0⟩,
        .error (.err .unknownTag)) ∧
    WellFormedVarint [0x07] ∧ varintValue [0x07] &&& 7 = 7 ∧
    (NewEncoder emptySink).Encode ⟨[0x07, 0x00, 0x00, 0x00], []⟩ =
      some (⟨⟨ascii "// error: unknown tag: 07 00 00 00", none⟩, 0⟩,
        .error (.err .unknownTag)) ∧
    Err.unknownTag ≠ Err.invalidType 6 ∧ Err.unknownTag ≠ Err.invalidType 7 := by
  exact ⟨by decide!, by decide!, by decide!, by decide!, by decide!, by decide!,
    by decide, by decide⟩

/-- C10 (failing input). On the one-byte input `80` (a tag varint cut off before its
terminating byte) held in a slice of capacity 1, `Encode` on a fresh encoder does not
return an error: after writing `// error: unknown tag: ` it panics on the slice
expression `b[:4]`.  The same happens on the one-byte input `00`, and on every
malformed tag with fewer than four bytes left in the backing array. -/
theorem C10_malformed_tag_with_short_input_panics :
    TruncatedVarint [0x80] ∧
    (NewEncoder emptySink).Encode ⟨[0x80], []⟩ =
      some (⟨⟨ascii "// error: unknown tag: ", none⟩, 0⟩, .error (.panic .sliceBounds)) ∧
    (NewEncoder emptySink).Encode ⟨[0x80, 0x80, 0x80], []⟩ =
      some (⟨⟨ascii "// error: unknown tag: ", none⟩, 0⟩, .error (.panic .sliceBounds)) ∧
    (NewEncoder emptySink).Encode ⟨[0x80, 0x80, 0x80, 0x80], []⟩ =
      some (⟨⟨ascii "// error: unknown tag: 80 80 80 80", none⟩, 0⟩,
        .error (.err .unknownTag)) := by
  exact ⟨by decide!, by decide!, by decide!, by decide!⟩

/-! ## Lemmas on depth, lines and repeated calls -/

theorem decodeValue_fst (enc : Encoder) (typ : Nat) (l : List Byte) :
    (enc.decodeValue typ l).1 = { enc with indent := enc.indent + depthChange typ } := by
  unfold Encoder.decodeValue depthChange
  simp only [VarintType, Fixed32Type, Fixed64Type, BytesType, StartGroupType, EndGroupType]
  repeat' split
  all_goals first
    | rfl
    | simp_all

theorem decodeValue_snd (enc enc0 : Encoder) (typ : Nat) (l : List Byte) :
    (enc.decodeValue typ l).2 = (enc0.decodeValue typ l).2 := by
  unfold Encoder.decodeValue
  repeat' split
  all_goals rfl

theorem encodeFieldValue_closed (enc : Encoder) (typ : Nat) (b : Slice)
    (hq : enc.w.quota = none) (hd : 0 ≤ enc.indent) :
    enc.encodeFieldValue typ b =
      match (enc.decodeValue typ b.elems).2 with
      | .error f =>
        ({ enc.emit (indentText enc.indent) with indent := enc.indent + depthChange typ },
          .error f)
      | .ok (m, val) =>
        ({ enc.emit (valueLine enc.indent (b.elems.take m.toNat) val) with
            indent := enc.indent + depthChange typ }, .ok m) := by
  rcases hdv : enc.decodeValue typ b.elems with ⟨enc2, r⟩
  have h1 := decodeValue_fst enc typ b.elems
  rw [hdv] at h1
  simp only at h1
  cases r with
  | error f =>
    rw [encodeFieldValue_err enc enc2 typ b f hq hd hdv, h1]
    rfl
  | ok p =>
    rcases p with ⟨m, val⟩
    rw [encodeFieldValue_ok enc enc2 typ b m val hq hd hdv, h1]
    rfl

theorem encodeField_closed (enc : Encoder) (b : Slice) (num : Int) (typ : Nat) (n : Int)
    (hq : enc.w.quota = none) (hd : 0 ≤ enc.indent)
    (ht : ConsumeTag b.elems = (num, typ, n)) (hn : 0 ≤ n) :
    enc.encodeField b =
      match (enc.decodeValue typ (b.elems.drop n.toNat)).2 with
      | .error f =>
        ({ enc.emit (tagLine enc.indent (b.elems.take n.toNat) num typ
            ++ indentText enc.indent) with indent := enc.indent + depthChange typ },
          .error f)
      | .ok (m, val) =>
        ({ enc.emit (tagLine enc.indent (b.elems.take n.toNat) num typ
            ++ valueLine enc.indent ((b.elems.drop n.toNat).take m.toNat) val) with
            indent := enc.indent + depthChange typ }, .ok (n + m)) := by
  rw [encodeField_ok enc b num typ n hq hd ht hn,
    encodeFieldValue_closed _ typ _ (by simpa using hq) (by simpa using hd)]
  rw [decodeValue_snd (enc.emit _) enc]
  rcases (enc.decodeValue typ (b.elems.drop n.toNat)).2 with f | ⟨m, val⟩
  · simp only [emit_indent, emit_emit]
  · simp only [emit_indent, emit_emit]

theorem prepend_encoderAt (enc : Encoder) (t : List Byte) (d : Int)
    (hq : enc.w.quota = none) :
    Encoder.prepend enc.w.data { (encoderAt enc.indent).emit t with indent := d } =
      { enc.emit t with indent := d } := by
  rcases enc with ⟨⟨data, quota⟩, indent⟩
  simp only at hq
  subst hq
  simp [Encoder.prepend, encoderAt, emptySink, Encoder.emit]

theorem prepend_encoderAt_emit (enc : Encoder) (t : List Byte) (hq : enc.w.quota = none) :
    Encoder.prepend enc.w.data ((encoderAt enc.indent).emit t) = enc.emit t := by
  rcases enc with ⟨⟨data, quota⟩, indent⟩
  simp only at hq
  subst hq
  simp [Encoder.prepend, encoderAt, emptySink, Encoder.emit]

theorem prepend_encoderAt_self (enc : Encoder) (hq : enc.w.quota = none) :
    Encoder.prepend enc.w.data (encoderAt enc.indent) = enc := by
  rcases enc with ⟨⟨data, quota⟩, indent⟩
  simp only at hq
  subst hq
  simp [Encoder.prepend, encoderAt, emptySink]

/-- On a sink that never fails, what `encodeField` does depends on the sink only in
that the text is appended to what the sink holds. -/
theorem encodeField_prepend (enc : Encoder) (b : Slice) (hq : enc.w.quota = none) :
    enc.encodeField b =
      (Encoder.prepend enc.w.data ((encoderAt enc.indent).encodeField b).1,
        ((encoderAt enc.indent).encodeField b).2) := by
  by_cases hd : 0 ≤ enc.indent
  · rcases ht : ConsumeTag b.elems with ⟨num, typ, n⟩
    by_cases hn : 0 ≤ n
    · rw [encodeField_closed enc b num typ n hq hd ht hn,
        encodeField_closed (encoderAt enc.indent) b num typ n rfl hd ht hn]
      rw [decodeValue_snd (encoderAt enc.indent) enc]
      rcases (enc.decodeValue typ (b.elems.drop n.toNat)).2 with f | ⟨m, val⟩
      · simp only
        rw [← prepend_encoderAt enc _ _ hq]
        rfl
      · simp only
        rw [← prepend_encoderAt enc _ _ hq]
        rfl
    · have hneg : (ConsumeTag b.elems).2.2 < 0 := by rw [ht]; simp only; omega
      rw [encodeField_unknownTag enc b hq hd hneg,
        encodeField_unknownTag (encoderAt enc.indent) b rfl hd hneg]
      by_cases h4 : 4 ≤ b.cap
      · simp only [h4, if_true]
        rw [prepend_encoderAt_emit enc _ hq]; rfl
      · simp only [h4, if_false]
        rw [prepend_encoderAt_emit enc _ hq]; rfl
  · have hneg : enc.indent < 0 := by omega
    rw [encodeField_negative_depth enc b hneg,
      encodeField_negative_depth (encoderAt enc.indent) b hneg]
    simp only [prepend_encoderAt_self enc hq]

theorem encodeField_quota (enc : Encoder) (b : Slice) (hq : enc.w.quota = none) :
    (enc.encodeField b).1.w.quota = none := by
  rw [encodeField_prepend enc b hq]
  simp only [Encoder.prepend]
  generalize hr : (encoderAt enc.indent).encodeField b = r
  by_cases hd : 0 ≤ enc.indent
  · rcases ht : ConsumeTag b.elems with ⟨num, typ, n⟩
    by_cases hn : 0 ≤ n
    · rw [encodeField_closed (encoderAt enc.indent) b num typ n rfl hd ht hn] at hr
      rcases h2 : ((encoderAt enc.indent).decodeValue typ (b.elems.drop n.toNat)).2
        with f | ⟨m, val⟩ <;> rw [h2] at hr <;> simp only at hr <;> rw [← hr] <;> rfl
    · have hneg : (ConsumeTag b.elems).2.2 < 0 := by rw [ht]; simp only; omega
      rw [encodeField_unknownTag (encoderAt enc.indent) b rfl hd hneg] at hr
      by_cases h4 : 4 ≤ b.cap
      · simp only [h4, if_true] at hr; rw [← hr]; rfl
      · simp only [h4, if_false] at hr; rw [← hr]; rfl
  · have hneg : enc.indent < 0 := by omega
    rw [encodeField_negative_depth (encoderAt enc.indent) b hneg] at hr
    rw [← hr]; rfl

theorem prepend_prepend (s t : List Byte) (e : Encoder) :
    Encoder.prepend s (Encoder.prepend t e) = Encoder.prepend (s ++ t) e := by
  simp [Encoder.prepend, List.append_assoc]

@[simp] theorem prepend_indent (s : List Byte) (e : Encoder) :
    (Encoder.prepend s e).indent = e.indent := rfl

@[simp] theorem prepend_quota (s : List Byte) (e : Encoder) :
    (Encoder.prepend s e).w.quota = e.w.quota := rfl

@[simp] theorem prepend_data (s : List Byte) (e : Encoder) :
    (Encoder.prepend s e).w.data = s ++ e.w.data := rfl

/-- On a sink that never fails, what the loop of `Encode` does depends on the sink
only in that the text is appended to what the sink holds. -/
theorem EncodeLoop_prepend (fuel : Nat) : ∀ (enc : Encoder) (b : Slice),
    enc.w.quota = none →
    Encoder.EncodeLoop fuel enc b =
      (Encoder.EncodeLoop fuel (encoderAt enc.indent) b).map
        (fun r => (Encoder.prepend enc.w.data r.1, r.2)) := by
  induction fuel with
  | zero =>
    intro enc b hq
    rw [EncodeLoop_unfold, EncodeLoop_unfold 0 (encoderAt enc.indent)]
    by_cases hpos : b.len > 0
    · simp [hpos]
    · simp [hpos, prepend_encoderAt_self enc hq]
  | succ k ih =>
    intro enc b hq
    rw [EncodeLoop_unfold, EncodeLoop_unfold (k + 1) (encoderAt enc.indent)]
    by_cases hpos : b.len > 0
    · simp only [hpos, if_true]
      have hq1 := encodeField_quota (encoderAt enc.indent) b rfl
      rw [encodeField_prepend enc b hq]
      rcases hf : (encoderAt enc.indent).encodeField b with ⟨e1, r⟩
      rw [hf] at hq1
      simp only at hq1
      cases r with
      | error f => simp
      | ok n =>
        simp only
        cases hs : b.sliceFrom n with
        | error f => simp
        | ok b1 =>
          simp only
          rw [ih (Encoder.prepend enc.w.data e1) b1 (by simpa using hq1), ih e1 b1 hq1]
          simp only [prepend_indent, prepend_data, Option.map_map]
          congr 1
          funext r
          simp [prepend_prepend]
    · simp [hpos, prepend_encoderAt_self enc hq]

theorem Encode_prepend (enc : Encoder) (b : Slice) (hq : enc.w.quota = none) :
    enc.Encode b =
      ((encoderAt enc.indent).Encode b).map
        (fun r => (Encoder.prepend enc.w.data r.1, r.2)) :=
  EncodeLoop_prepend b.len enc b hq

theorem EncodeLoop_quota (fuel : Nat) : ∀ (enc e : Encoder) (b : Slice) (r : Except Fault Unit),
    enc.w.quota = none → Encoder.EncodeLoop fuel enc b = some (e, r) → e.w.quota = none := by
  induction fuel with
  | zero =>
    intro enc e b r hq h
    rw [EncodeLoop_unfold] at h
    by_cases hpos : b.len > 0
    · simp [hpos] at h
    · simp only [hpos, if_false, Option.some.injEq, Prod.mk.injEq] at h
      rw [← h.1]; exact hq
  | succ k ih =>
    intro enc e b r hq h
    rw [EncodeLoop_unfold] at h
    by_cases hpos : b.len > 0
    · simp only [hpos, if_true] at h
      have hq1 := encodeField_quota enc b hq
      rcases hf : enc.encodeField b with ⟨e1, r1⟩
      rw [hf] at h hq1
      simp only at hq1
      cases r1 with
      | error f =>
        simp only [Option.some.injEq, Prod.mk.injEq] at h
        rw [← h.1]; exact hq1
      | ok n =>
        simp only at h
        cases hs : b.sliceFrom n with
        | error f =>
          rw [hs] at h
          simp only [Option.some.injEq, Prod.mk.injEq] at h
          rw [← h.1]; exact hq1
        | ok b1 =>
          rw [hs] at h
          exact ih e1 e b1 r hq1 h
    · simp only [hpos, if_false, Option.some.injEq, Prod.mk.injEq] at h
      rw [← h.1]; exact hq

theorem Encode_quota (enc e : Encoder) (b : Slice) (r : Except Fault Unit)
    (hq : enc.w.quota = none) (h : enc.Encode b = some (e, r)) : e.w.quota = none :=
  EncodeLoop_quota b.len enc e b r hq h

theorem consumeVarintFrom_append (l q : List Byte) : ∀ (i v : Nat),
    0 ≤ (consumeVarintFrom i v l).2 →
    consumeVarintFrom i v (l ++ q) = consumeVarintFrom i v l := by
  induction l with
  | nil =>
    intro i v h
    simp [consumeVarintFrom, errCodeTruncated] at h
  | cons y ys ih =>
    intro i v h
    rw [List.cons_append, consumeVarintFrom_cons, consumeVarintFrom_cons]
    rw [consumeVarintFrom_cons] at h
    by_cases h9 : i < 9
    · simp only [h9, if_true] at h ⊢
      by_cases hy : y.val < 0x80
      · simp only [hy, if_true]
      · simp only [hy, if_false] at h ⊢
        exact ih _ _ h
    · simp only [h9, if_false]

theorem ConsumeVarint_append (l q : List Byte) (h : 0 ≤ (ConsumeVarint l).2) :
    ConsumeVarint (l ++ q) = ConsumeVarint l :=
  consumeVarintFrom_append l q 0 0 h

theorem ConsumeTag_append (l q : List Byte) (h : 0 ≤ (ConsumeTag l).2.2) :
    ConsumeTag (l ++ q) = ConsumeTag l := by
  have hv : 0 ≤ (ConsumeVarint l).2 := by
    by_contra hneg
    have := ConsumeTag_of_varint_error l (by omega)
    omega
  unfold ConsumeTag
  rw [ConsumeVarint_append l q hv]

theorem ConsumeFixed32_append (l q : List Byte) (h : 0 ≤ (ConsumeFixed32 l).2) :
    ConsumeFixed32 (l ++ q) = ConsumeFixed32 l := by
  unfold ConsumeFixed32 at h ⊢
  by_cases hl : l.length < 4
  · simp [hl, errCodeTruncated] at h
  · have hl2 : ¬ ((l ++ q).length < 4) := by simp only [List.length_append]; omega
    simp only [hl, hl2, if_false]
    rw [List.take_append_of_le_length (by omega)]

theorem ConsumeFixed64_append (l q : List Byte) (h : 0 ≤ (ConsumeFixed64 l).2) :
    ConsumeFixed64 (l ++ q) = ConsumeFixed64 l := by
  unfold ConsumeFixed64 at h ⊢
  by_cases hl : l.length < 8
  · simp [hl, errCodeTruncated] at h
  · have hl2 : ¬ ((l ++ q).length < 8) := by simp only [List.length_append]; omega
    simp only [hl, hl2, if_false]
    rw [List.take_append_of_le_length (by omega)]

theorem ConsumeBytes_append (l q : List Byte) (h : 0 ≤ (ConsumeBytes l).2) :
    ConsumeBytes (l ++ q) = ConsumeBytes l := by
  have hv : 0 ≤ (ConsumeVarint l).2 := by
    by_contra hneg
    unfold ConsumeBytes at h
    rcases hc : ConsumeVarint l with ⟨m, n⟩
    rw [hc] at h hneg
    simp only at h hneg
    have hn : n < 0 := by omega
    simp only [hn, if_true] at h
    omega
  have hb := ConsumeVarint_bounds l
  unfold ConsumeBytes at h ⊢
  rw [ConsumeVarint_append l q hv]
  rcases hc : ConsumeVarint l with ⟨m, n⟩
  rw [hc] at h hv hb
  simp only at h hv hb ⊢
  have hn : ¬ n < 0 := by omega
  simp only [hn, if_false] at h ⊢
  have hn2 : n.toNat ≤ l.length := by omega
  by_cases hm : m > (l.drop n.toNat).length
  · rw [if_pos hm] at h
    simp [errCodeTruncated] at h
  · have hm2 : ¬ (m > ((l ++ q).drop n.toNat).length) := by
      simp only [List.length_drop, List.length_append] at hm ⊢
      omega
    rw [if_neg hm, if_neg hm2, List.drop_append_of_le_length hn2,
      List.take_append_of_le_length (by omega)]

/-- A value that decodes from `l` decodes in the same way from `l` followed by more
bytes. -/
theorem decodeValue_append (enc : Encoder) (typ : Nat) (l q : List Byte) (m : Int)
    (val : List Byte) (h : (enc.decodeValue typ l).2 = .ok (m, val)) :
    (enc.decodeValue typ (l ++ q)).2 = .ok (m, val) := by
  unfold Encoder.decodeValue at h ⊢
  split
  · rename_i ht
    simp only [ht, if_true] at h
    have h0 : 0 ≤ (ConsumeVarint l).2 := by
      by_contra hneg
      have : (ConsumeVarint l).2 < 0 := by omega
      simp [this] at h
    rw [ConsumeVarint_append l q h0]
    exact h
  · rename_i ht1
    simp only [ht1, if_false] at h
    split
    · rename_i ht
      simp only [ht, if_true] at h
      have h0 : 0 ≤ (ConsumeFixed32 l).2 := by
        by_contra hneg
        have : (ConsumeFixed32 l).2 < 0 := by omega
        simp [this] at h
      rw [ConsumeFixed32_append l q h0]
      exact h
    · rename_i ht2
      simp only [ht2, if_false] at h
      split
      · rename_i ht
        simp only [ht, if_true] at h
        have h0 : 0 ≤ (ConsumeFixed64 l).2 := by
          by_contra hneg
          have : (ConsumeFixed64 l).2 < 0 := by omega
          simp [this] at h
        rw [ConsumeFixed64_append l q h0]
        exact h
      · rename_i ht3
        simp only [ht3, if_false] at h
        split
        · rename_i ht
          simp only [ht, if_true] at h
          have h0 : 0 ≤ (ConsumeBytes l).2 := by
            by_contra hneg
            have : (ConsumeBytes l).2 < 0 := by omega
            simp [this] at h
          rw [ConsumeBytes_append l q h0]
          exact h
        · rename_i ht4
          simp only [ht4, if_false] at h
          exact h

/-- A field that `encodeField` processes without error is processed in the same way
when more bytes follow the input (sink never failing). -/
theorem encodeField_append (enc e1 : Encoder) (p q sp spare : List Byte) (c : Int)
    (hq : enc.w.quota = none)
    (h : enc.encodeField ⟨p, sp⟩ = (e1, .ok c)) :
    enc.encodeField ⟨p ++ q, spare⟩ = (e1, .ok c) := by
  have hd : 0 ≤ enc.indent := by
    by_contra hneg
    rw [encodeField_negative_depth enc _ (by omega)] at h
    simp at h
  have hc := encodeField_count enc ⟨p, sp⟩ e1 c h
  simp only [Slice.len] at hc
  rcases ht : ConsumeTag p with ⟨num, typ, n⟩
  rw [ht] at hc
  simp only at hc
  have hn : 0 ≤ n := by omega
  have ht2 : ConsumeTag (p ++ q) = (num, typ, n) := by
    rw [ConsumeTag_append p q (by rw [ht]; exact hn), ht]
  have hnl : n.toNat ≤ p.length := by omega
  rw [encodeField_closed enc ⟨p, sp⟩ num typ n hq hd ht hn] at h
  rw [encodeField_closed enc ⟨p ++ q, spare⟩ num typ n hq hd ht2 hn]
  simp only at h ⊢
  rw [List.drop_append_of_le_length hnl, List.take_append_of_le_length hnl]
  rcases hdv : (enc.decodeValue typ (p.drop n.toNat)).2 with f | ⟨m, val⟩
  · rw [hdv] at h
    simp at h
  · rw [hdv] at h
    rw [decodeValue_append enc typ _ q m val hdv]
    simp only at h ⊢
    have hm : 0 ≤ m ∧ m ≤ (p.drop n.toNat).length := by
      have hfull : enc.decodeValue typ (p.drop n.toNat)
          = ((enc.decodeValue typ (p.drop n.toNat)).1, .ok (m, val)) := by
        rw [← hdv]
      exact decodeValue_count _ _ _ _ _ _ hfull
    rw [List.take_append_of_le_length (by omega)]
    exact h

/-- When `Encode(p)` returns nil, `Encode(p ++ q)` goes through the fields of `p` in
the same way and then goes on with `q` from the encoder state reached. -/
theorem Encode_append (k : Nat) : ∀ (enc enc1 : Encoder) (p q sp spare : List Byte),
    p.length ≤ k → enc.w.quota = none →
    enc.Encode ⟨p, sp⟩ = some (enc1, .ok ()) →
    enc.Encode ⟨p ++ q, spare⟩ = enc1.Encode ⟨q, spare⟩ := by
  induction k with
  | zero =>
    intro enc enc1 p q sp spare hk _ h
    have hp : p = [] := List.length_eq_zero.mp (by omega)
    subst hp
    rw [Encode_nil enc ⟨[], sp⟩ rfl] at h
    simp only [Option.some.injEq, Prod.mk.injEq, and_true] at h
    rw [← h]
    rfl
  | succ k ih =>
    intro enc enc1 p q sp spare hk hq h
    by_cases hp : p = []
    · subst hp
      rw [Encode_nil enc ⟨[], sp⟩ rfl] at h
      simp only [Option.some.injEq, Prod.mk.injEq, and_true] at h
      rw [← h]
      rfl
    · have hpos : 0 < (⟨p, sp⟩ : Slice).len := List.length_pos.mpr hp
      rcases hf : enc.encodeField ⟨p, sp⟩ with ⟨e1, r⟩
      cases r with
      | error f =>
        rw [Encode_fail enc ⟨p, sp⟩ e1 f hpos hf] at h
        simp at h
      | ok c =>
        have hc := encodeField_count enc ⟨p, sp⟩ e1 c hf
        simp only [Slice.len] at hc
        have hq1 : e1.w.quota = none := by
          have := encodeField_quota enc ⟨p, sp⟩ hq
          rw [hf] at this
          exact this
        rw [Encode_step enc ⟨p, sp⟩ e1 c hf] at h
        rw [Encode_step enc ⟨p ++ q, spare⟩ e1 c (encodeField_append enc e1 p q sp spare c hq hf)]
        simp only at h ⊢
        rw [List.drop_append_of_le_length (by omega)]
        exact ih e1 enc1 (p.drop c.toNat) q sp spare
          (by simp only [List.length_drop]; omega) hq1 h

theorem printf_indent (enc : Encoder) (t : List Byte) :
    (enc.printf t).1.indent = enc.indent := by
  unfold Encoder.printf
  split <;> rfl

theorem writeIndent_indent (enc : Encoder) : enc.writeIndent.1.indent = enc.indent := by
  unfold Encoder.writeIndent
  split
  · rfl
  · exact printf_indent enc _

theorem writeBytesLoop_indent (xs : List Byte) : ∀ (enc : Encoder) (first : Bool),
    (enc.writeBytesLoop first xs).1.indent = enc.indent := by
  induction xs with
  | nil => intro enc first; rfl
  | cons x xs ih =>
    intro enc first
    unfold Encoder.writeBytesLoop
    have hp := printf_indent enc (if first then hex2 x else 0x20 :: hex2 x)
    rcases h : enc.printf (if first then hex2 x else 0x20 :: hex2 x) with ⟨e1, r⟩
    rw [h] at hp
    cases r with
    | error f => exact hp
    | ok u =>
      simp only
      rw [ih e1 false]
      exact hp

theorem writeBytes_indent (enc : Encoder) (b : Slice) :
    (enc.writeBytes b).1.indent = enc.indent :=
  writeBytesLoop_indent b.elems enc true

/-- A field whose value `encodeFieldValue` renders without error changes the depth
by the amount of its wire type, on every sink. -/
theorem encodeFieldValue_indent (enc enc' : Encoder) (typ : Nat) (b : Slice) (m : Int)
    (h : enc.encodeFieldValue typ b = (enc', .ok m)) :
    enc'.indent = enc.indent + depthChange typ := by
  unfold Encoder.encodeFieldValue at h
  split at h
  · simp at h
  · rename_i enc1 _ h1
    have i1 : enc1.indent = enc.indent := by
      have := writeIndent_indent enc; rw [h1] at this; exact this
    split at h
    · simp at h
    · rename_i enc2 n val h2
      have i2 : enc2.indent = enc1.indent + depthChange typ := by
        have := decodeValue_fst enc1 typ b.elems; rw [h2] at this
        simp only at this
        rw [this]
      split at h
      · simp at h
      · rename_i bn _
        split at h
        · simp at h
        · rename_i enc3 _ h3
          have i3 : enc3.indent = enc2.indent := by
            have := writeBytes_indent enc2 bn; rw [h3] at this; exact this
          split at h
          · simp at h
          · rename_i enc4 _ h4
            have i4 : enc4.indent = enc3.indent := by
              have := printf_indent enc3 (ascii " // " ++ val ++ ascii "\n")
              rw [h4] at this; exact this
            simp only [Prod.mk.injEq, Except.ok.injEq] at h
            rw [← h.1]
            omega

/-- A field that `encodeField` processes without error changes the depth by the
amount of its wire type: +1 for StartGroup, -1 for EndGroup, 0 otherwise. -/
theorem encodeField_indent (enc enc' : Encoder) (b : Slice) (c : Int)
    (h : enc.encodeField b = (enc', .ok c)) :
    enc'.indent = enc.indent + depthChange (ConsumeTag b.elems).2.1 := by
  unfold Encoder.encodeField at h
  split at h
  · simp at h
  · rename_i enc1 _ h1
    have i1 : enc1.indent = enc.indent := by
      have := writeIndent_indent enc; rw [h1] at this; exact this
    rcases hc : ConsumeTag b.elems with ⟨num, typ, n⟩
    rw [hc] at h
    simp only at h ⊢
    split at h
    · split at h
      · simp at h
      · split at h
        · simp at h
        · split at h <;> simp at h
    · split at h
      · simp at h
      · rename_i bn _
        split at h
        · simp at h
        · rename_i enc2 _ h2
          have i2 : enc2.indent = enc1.indent := by
            have := writeBytes_indent enc1 bn; rw [h2] at this; exact this
          split at h
          · simp at h
          · rename_i enc3 _ h3
            have i3 : enc3.indent = enc2.indent := by
              have := printf_indent enc2 (ascii " // field id=" ++ decimal num.toNat
                ++ ascii " type=" ++ ascii (typeToString typ) ++ ascii "\n")
              rw [h3] at this; exact this
            split at h
            · simp at h
            · rename_i rest _
              split at h
              · simp at h
              · rename_i enc4 m h4
                have i4 := encodeFieldValue_indent enc3 enc4 typ rest m h4
                simp only [Prod.mk.injEq, Except.ok.injEq] at h
                rw [← h.1]
                omega

theorem depthChange_count (typ : Nat) (l : List Nat) :
    ((typ :: l).count StartGroupType : Int) - ((typ :: l).count EndGroupType : Int) =
      depthChange typ + ((l.count StartGroupType : Int) - (l.count EndGroupType : Int)) := by
  simp only [List.count_cons, depthChange, StartGroupType, EndGroupType]
  by_cases h3 : typ = 3
  · subst h3; simp; omega
  · by_cases h4 : typ = 4
    · subst h4; simp; omega
    · simp [h3, h4]

theorem fieldTypes_final_depth (fuel : Nat) : ∀ (enc enc' : Encoder) (b : Slice),
    Encoder.EncodeLoop fuel enc b = some (enc', .ok ()) →
    enc'.indent = enc.indent + (((enc.fieldTypes fuel b).count StartGroupType : Int)
      - ((enc.fieldTypes fuel b).count EndGroupType : Int)) := by
  induction fuel with
  | zero =>
    intro enc enc' b h
    rw [EncodeLoop_unfold] at h
    by_cases hpos : b.len > 0
    · simp [hpos] at h
    · simp only [hpos, if_false, Option.some.injEq, Prod.mk.injEq, and_true] at h
      rw [← h]
      simp [Encoder.fieldTypes]
  | succ k ih =>
    intro enc enc' b h
    rw [EncodeLoop_unfold] at h
    by_cases hpos : b.len > 0
    · simp only [hpos, if_true] at h
      rcases hf : enc.encodeField b with ⟨enc1, r⟩
      rw [hf] at h
      cases r with
      | error f => simp at h
      | ok c =>
        have hc := encodeField_count enc b enc1 c hf
        have hi := encodeField_indent enc enc1 b c hf
        simp only [sliceFrom_ok b c (by omega) hc.2.2] at h
        have ih1 := ih enc1 enc' _ h
        simp only [Encoder.fieldTypes, hpos, if_true, hf, sliceFrom_ok b c (by omega) hc.2.2]
        rw [depthChange_count, ih1, hi]
        omega
    · simp only [hpos, if_false, Option.some.injEq, Prod.mk.injEq, and_true] at h
      rw [← h]
      simp [Encoder.fieldTypes, hpos]

theorem leadingSpaces_replicate (k : Nat) (l : List Byte) :
    leadingSpaces (List.replicate k 0x20 ++ l) = k + leadingSpaces l := by
  induction k with
  | zero => simp
  | succ k ih =>
    simp only [List.replicate_succ, List.cons_append, leadingSpaces] at ih ⊢
    rw [List.takeWhile_cons_of_pos (by simp), List.length_cons, ih]
    omega

theorem leadingSpaces_cons_ne (x : Byte) (l : List Byte) (h : x ≠ 0x20) :
    leadingSpaces (x :: l) = 0 := by
  simp [leadingSpaces, List.takeWhile_cons, h]

theorem hexDigit_ne_space : ∀ k : Fin 16, hexDigit k.val ≠ 0x20 := by decide!

theorem leadingSpaces_hexBytes (x : Byte) (xs l : List Byte) :
    leadingSpaces (hexBytes (x :: xs) ++ l) = 0 := by
  rw [hexBytes_cons]
  simp only [hex2, List.cons_append]
  apply leadingSpaces_cons_ne
  have hx : x.val / 16 < 16 := by have := x.isLt; omega
  exact hexDigit_ne_space ⟨x.val / 16, hx⟩

theorem leadingSpaces_tagLine (d : Int) (x : Byte) (xs : List Byte) (num : Int) (typ : Nat) :
    leadingSpaces (tagLine d (x :: xs) num typ) = (2 * d).toNat := by
  simp only [tagLine, indentText, List.append_assoc]
  rw [leadingSpaces_replicate, leadingSpaces_hexBytes]
  rfl

theorem leadingSpaces_valueLine (d : Int) (x : Byte) (xs val : List Byte) :
    leadingSpaces (valueLine d (x :: xs) val) = (2 * d).toNat := by
  simp only [valueLine, indentText, List.append_assoc]
  rw [leadingSpaces_replicate, leadingSpaces_hexBytes]
  rfl

theorem leadingSpaces_valueLine_nil (d : Int) (val : List Byte) :
    leadingSpaces (valueLine d [] val) = (2 * d).toNat + 1 := by
  simp only [valueLine, indentText, List.append_assoc]
  rw [leadingSpaces_replicate]
  have : leadingSpaces (hexBytes [] ++ (ascii " // " ++ (val ++ ascii "\n"))) = 1 := by
    have e : hexBytes [] ++ (ascii " // " ++ (val ++ ascii "\n"))
        = 0x20 :: 0x2f :: (0x2f :: 0x20 :: (val ++ ascii "\n")) := rfl
    rw [e]
    simp only [leadingSpaces]
    rw [List.takeWhile_cons_of_pos (by simp), List.takeWhile_cons_of_neg (by decide)]
    rfl
  rw [this]

/-- The count that the value decoder reports is zero for the group markers and at
least one for every other wire type. -/
theorem decodeValue_count_zero_iff (enc : Encoder) (typ : Nat) (l : List Byte) (m : Int)
    (val : List Byte) (h : (enc.decodeValue typ l).2 = .ok (m, val)) :
    (typ = StartGroupType ∨ typ = EndGroupType → m = 0) ∧
    (typ ≠ StartGroupType → typ ≠ EndGroupType → 1 ≤ m) := by
  unfold Encoder.decodeValue at h
  simp only [VarintType, Fixed32Type, Fixed64Type, BytesType, StartGroupType, EndGroupType]
    at h ⊢
  split at h
  · rename_i ht
    subst ht
    have hb := ConsumeVarint_bounds l
    rcases hc : ConsumeVarint l with ⟨v, k⟩
    rw [hc] at hb h
    simp only at hb h
    split at h
    · simp at h
    · simp only [Except.ok.injEq, Prod.mk.injEq] at h
      refine ⟨fun hg => by omega, fun _ _ => by omega⟩
  · split at h
    · rename_i ht
      subst ht
      have hb := ConsumeFixed32_bounds l
      rcases hc : ConsumeFixed32 l with ⟨v, k⟩
      rw [hc] at hb h
      simp only at hb h
      split at h
      · simp at h
      · simp only [Except.ok.injEq, Prod.mk.injEq] at h
        refine ⟨fun hg => by omega, fun _ _ => by omega⟩
    · split at h
      · rename_i ht
        subst ht
        have hb := ConsumeFixed64_bounds l
        rcases hc : ConsumeFixed64 l with ⟨v, k⟩
        rw [hc] at hb h
        simp only at hb h
        split at h
        · simp at h
        · simp only [Except.ok.injEq, Prod.mk.injEq] at h
          refine ⟨fun hg => by omega, fun _ _ => by omega⟩
      · split at h
        · rename_i ht
          subst ht
          have hb := ConsumeBytes_bounds l
          rcases hc : ConsumeBytes l with ⟨v, k⟩
          rw [hc] at hb h
          simp only at hb h
          split at h
          · simp at h
          · refine ⟨fun hg => by omega, fun _ _ => ?_⟩
            split at h <;>
            · simp only [Except.ok.injEq, Prod.mk.injEq] at h
              omega
        · split at h
          · simp only [Except.ok.injEq, Prod.mk.injEq] at h
            refine ⟨fun _ => by omega, fun h3 _ => by omega⟩
          · split at h
            · simp only [Except.ok.injEq, Prod.mk.injEq] at h
              refine ⟨fun _ => by omega, fun _ h4 => by omega⟩
            · simp at h

/-- The depth before the `i`-th processed field is the starting depth plus the
number of StartGroup fields minus the number of EndGroup fields among the `i`
fields before it. -/
theorem fieldDepths_spec (fuel : Nat) : ∀ (enc : Encoder) (b : Slice) (i : Nat) (d : Int),
    (enc.fieldDepths fuel b)[i]? = some d →
    d = enc.indent + ((((enc.fieldTypes fuel b).take i).count StartGroupType : Int)
      - (((enc.fieldTypes fuel b).take i).count EndGroupType : Int)) := by
  induction fuel with
  | zero => intro enc b i d h; simp [Encoder.fieldDepths] at h
  | succ k ih =>
    intro enc b i d h
    simp only [Encoder.fieldDepths, Encoder.fieldTypes] at h ⊢
    by_cases hpos : b.len > 0
    · simp only [hpos, if_true] at h ⊢
      rcases hf : enc.encodeField b with ⟨enc1, r⟩
      rw [hf] at h
      cases r with
      | error f => simp at h
      | ok c =>
        have hi := encodeField_indent enc enc1 b c hf
        simp only at h ⊢
        cases hs : b.sliceFrom c with
        | error f =>
          rw [hs] at h
          simp only at h ⊢
          cases i with
          | zero => simp at h ⊢; omega
          | succ j => simp at h
        | ok b1 =>
          rw [hs] at h
          simp only at h ⊢
          cases i with
          | zero => simp at h ⊢; omega
          | succ j =>
            simp only [List.getElem?_cons_succ] at h
            have := ih enc1 b1 j d h
            rw [List.take_succ_cons, depthChange_count, this, hi]
            omega
    · simp [hpos] at h

theorem ConsumeTag_typ_le (l : List Byte) : (ConsumeTag l).2.1 ≤ 7 := by
  unfold ConsumeTag
  rcases ConsumeVarint l with ⟨v, n⟩
  simp only
  split
  · exact Nat.zero_le _
  · unfold DecodeTag
    split
    · simp only
      split <;> simp
    · simp only
      split
      · exact Nat.zero_le _
      · exact Nat.and_le_right

theorem decodeValue_startGroup (enc : Encoder) (l : List Byte) :
    enc.decodeValue StartGroupType l =
      ({ enc with indent := enc.indent + 1 }, .ok (0, ascii "Start Group")) := by
  simp [Encoder.decodeValue, VarintType, Fixed32Type, Fixed64Type, BytesType, StartGroupType]

theorem decodeValue_endGroup (enc : Encoder) (l : List Byte) :
    enc.decodeValue EndGroupType l =
      ({ enc with indent := enc.indent - 1 }, .ok (0, ascii "End Group")) := by
  simp [Encoder.decodeValue, VarintType, Fixed32Type, Fixed64Type, BytesType, StartGroupType,
    EndGroupType]

theorem hexDigit_table : ∀ k : Fin 16,
    (ascii "0123456789abcdef")[k.val]? = some (hexDigit k.val) := by decide!

theorem hexDigit_injective : ∀ j k : Fin 16, hexDigit j.val = hexDigit k.val → j = k := by
  decide!

theorem hex2_injective (x y : Byte) (h : hex2 x = hex2 y) : x = y := by
  have hx := x.isLt
  have hy := y.isLt
  simp only [hex2, List.cons.injEq, and_true] at h
  have h1 := hexDigit_injective ⟨x.val / 16, by omega⟩ ⟨y.val / 16, by omega⟩ h.1
  have h2 := hexDigit_injective ⟨x.val % 16, by omega⟩ ⟨y.val % 16, by omega⟩ h.2
  simp only [Fin.mk.injEq] at h1 h2
  exact Fin.ext (by omega)

theorem hexTail_length (xs : List Byte) :
    (xs.flatMap (fun y => 0x20 :: hex2 y)).length = 3 * xs.length := by
  induction xs with
  | nil => rfl
  | cons x xs ih =>
    rw [List.flatMap_cons, List.length_append, ih]
    simp only [hex2, List.length_cons, List.length_nil]
    omega

theorem hexBytes_length (x : Byte) (xs : List Byte) :
    (hexBytes (x :: xs)).length = 3 * (x :: xs).length - 1 := by
  rw [hexBytes_cons, List.length_append, hexTail_length]
  simp only [hex2, List.length_cons, List.length_nil]
  omega

theorem hexTail_injective (xs : List Byte) : ∀ ys : List Byte,
    xs.flatMap (fun y => 0x20 :: hex2 y) = ys.flatMap (fun y => 0x20 :: hex2 y) →
    xs = ys := by
  induction xs with
  | nil =>
    intro ys h
    cases ys with
    | nil => rfl
    | cons y ys => simp [List.flatMap_cons] at h
  | cons x xs ih =>
    intro ys h
    cases ys with
    | nil => simp [List.flatMap_cons] at h
    | cons y ys =>
      simp only [List.flatMap_cons] at h
      have hlen : ((0x20 : Byte) :: hex2 x).length = ((0x20 : Byte) :: hex2 y).length := rfl
      obtain ⟨h1, h2⟩ := List.append_inj h hlen
      have hxy : x = y := hex2_injective x y (List.tail_eq_of_cons_eq h1)
      rw [hxy, ih ys h2]

theorem hexBytes_injective (xs ys : List Byte) (h : hexBytes xs = hexBytes ys) : xs = ys := by
  cases xs with
  | nil =>
    cases ys with
    | nil => rfl
    | cons y ys =>
      have := congrArg List.length h
      rw [hexBytes_length] at this
      simp only [hexBytes, List.map_nil, List.intercalate, List.intersperse_nil,
        List.flatten_nil, List.length_nil, List.length_cons] at this
      omega
  | cons x xs =>
    cases ys with
    | nil =>
      have := congrArg List.length h
      rw [hexBytes_length] at this
      simp only [hexBytes, List.map_nil, List.intercalate, List.intersperse_nil,
        List.flatten_nil, List.length_nil, List.length_cons] at this
      omega
    | cons y ys =>
      rw [hexBytes_cons, hexBytes_cons] at h
      have hlen : (hex2 x).length = (hex2 y).length := rfl
      obtain ⟨h1, h2⟩ := List.append_inj h hlen
      rw [hex2_injective x y h1, hexTail_injective xs ys h2]

theorem newlines_append (s t : List Byte) : newlines (s ++ t) = newlines s + newlines t := by
  simp [newlines, List.count_append]

theorem newlines_indentText (d : Int) : newlines (indentText d) = 0 := by
  simp only [newlines, indentText, List.count_replicate]
  rfl

theorem hexDigit_ne_newline : ∀ k : Fin 16, hexDigit k.val ≠ 0x0A := by decide!

theorem newlines_hex2 (x : Byte) : newlines (hex2 x) = 0 := by
  have hx := x.isLt
  have h1 := hexDigit_ne_newline ⟨x.val / 16, by omega⟩
  have h2 := hexDigit_ne_newline ⟨x.val % 16, by omega⟩
  simp only [newlines, hex2]
  rw [List.count_eq_zero]
  intro hmem
  simp only [List.mem_cons, List.mem_singleton, List.not_mem_nil, or_false] at hmem
  rcases hmem with h | h
  · exact h1 h.symm
  · exact h2 h.symm

theorem newlines_hexTail (xs : List Byte) :
    newlines (xs.flatMap (fun y => 0x20 :: hex2 y)) = 0 := by
  induction xs with
  | nil => rfl
  | cons x xs ih =>
    rw [List.flatMap_cons, newlines_append, ih]
    have := newlines_hex2 x
    simp only [newlines] at this ⊢
    rw [List.count_cons, this]
    rfl

theorem newlines_hexBytes (l : List Byte) : newlines (hexBytes l) = 0 := by
  cases l with
  | nil => rfl
  | cons x xs => rw [hexBytes_cons, newlines_append, newlines_hex2, newlines_hexTail]

theorem digitChar_ne_newline : ∀ k : Fin 10,
    (Fin.ofNat (Nat.digitChar k.val).toNat : Byte) ≠ 0x0A := by decide!

theorem toDigitsCore_no_newline (fuel : Nat) : ∀ (n : Nat) (ds : List Char),
    (∀ c ∈ ds, (Fin.ofNat c.toNat : Byte) ≠ 0x0A) →
    ∀ c ∈ Nat.toDigitsCore 10 fuel n ds, (Fin.ofNat c.toNat : Byte) ≠ 0x0A := by
  induction fuel with
  | zero => intro n ds h; simpa [Nat.toDigitsCore] using h
  | succ k ih =>
    intro n ds h
    have hd : (Fin.ofNat (Nat.digitChar (n % 10)).toNat : Byte) ≠ 0x0A :=
      digitChar_ne_newline ⟨n % 10, Nat.mod_lt _ (by norm_num)⟩
    have h2 : ∀ c ∈ Nat.digitChar (n % 10) :: ds, (Fin.ofNat c.toNat : Byte) ≠ 0x0A := by
      intro c hc
      rcases List.mem_cons.mp hc with rfl | hc
      · exact hd
      · exact h c hc
    simp only [Nat.toDigitsCore]
    split
    · exact h2
    · exact ih _ _ h2

theorem newlines_decimal (n : Nat) : newlines (decimal n) = 0 := by
  simp only [newlines, decimal, Nat.toDigits]
  rw [List.count_eq_zero]
  intro hmem
  obtain ⟨c, hc, hcn⟩ := List.mem_map.mp hmem
  exact toDigitsCore_no_newline (n + 1) n [] (by simp) c hc hcn

theorem newlines_typeToString (typ : Nat) : newlines (ascii (typeToString typ)) = 0 := by
  unfold typeToString
  repeat' split
  all_goals decide!

theorem newlines_tagLine (d : Int) (tag : List Byte) (num : Int) (typ : Nat) :
    newlines (tagLine d tag num typ) = 1 := by
  simp only [tagLine, newlines_append, newlines_indentText, newlines_hexBytes,
    newlines_decimal, newlines_typeToString]
  decide!

theorem newlines_valueLine (d : Int) (value val : List Byte) :
    newlines (valueLine d value val) = 1 + newlines val := by
  simp only [valueLine, newlines_append, newlines_indentText, newlines_hexBytes]
  have h1 : newlines (ascii " // ") = 0 := by decide!
  have h2 : newlines (ascii "\n") = 1 := by decide!
  rw [h1, h2]
  omega

theorem getLast?_tagLine (d : Int) (tag : List Byte) (num : Int) (typ : Nat) :
    (tagLine d tag num typ).getLast? = some 0x0A := by
  simp only [tagLine]
  rw [List.getLast?_append]
  rfl

theorem getLast?_valueLine (d : Int) (value val : List Byte) :
    (valueLine d value val).getLast? = some 0x0A := by
  simp only [valueLine]
  rw [List.getLast?_append]
  rfl

/-- The text that `encodeField` writes for a field it processes without error (sink
never failing): the tag line followed by the value line. -/
theorem encodeField_text (enc enc1 : Encoder) (b : Slice) (c : Int)
    (hq : enc.w.quota = none) (h : enc.encodeField b = (enc1, .ok c)) :
    enc1.w.data = enc.w.data ++
      (tagLine enc.indent (b.elems.take (ConsumeTag b.elems).2.2.toNat)
          (ConsumeTag b.elems).1 (ConsumeTag b.elems).2.1
        ++ valueLine enc.indent
          ((b.elems.drop (ConsumeTag b.elems).2.2.toNat).take
            (c - (ConsumeTag b.elems).2.2).toNat)
          (match (enc.decodeValue (ConsumeTag b.elems).2.1
              (b.elems.drop (ConsumeTag b.elems).2.2.toNat)).2 with
            | .ok (_, v) => v
            | .error _ => [])) := by
  have hd : 0 ≤ enc.indent := by
    by_contra hneg
    rw [encodeField_negative_depth enc _ (by omega)] at h
    simp at h
  have hc := encodeField_count enc b enc1 c h
  rcases ht : ConsumeTag b.elems with ⟨num, typ, n⟩
  rw [ht] at hc
  simp only at hc ⊢
  rw [encodeField_closed enc b num typ n hq hd ht (by omega)] at h
  rcases hdv : (enc.decodeValue typ (b.elems.drop n.toNat)).2 with f | ⟨m, val⟩
  · rw [hdv] at h
    simp at h
  · rw [hdv] at h
    simp only [Prod.mk.injEq, Except.ok.injEq] at h
    have hcm : c - n = m := by omega
    rw [← h.1, hcm]
    simp [Encoder.emit]

theorem EncodeLoop_lines (fuel : Nat) : ∀ (enc enc' : Encoder) (b : Slice),
    enc.w.quota = none → Encoder.EncodeLoop fuel enc b = some (enc', .ok ()) →
    enc'.w.data = enc.w.data ++ ((enc.fieldLines fuel b).map (fun p => p.1 ++ p.2.1)).flatten ∧
    (enc.fieldLines fuel b).length = (enc.fieldCounts fuel b).length := by
  induction fuel with
  | zero =>
    intro enc enc' b _ h
    rw [EncodeLoop_unfold] at h
    by_cases hpos : b.len > 0
    · simp [hpos] at h
    · simp only [hpos, if_false, Option.some.injEq, Prod.mk.injEq, and_true] at h
      rw [← h]
      simp [Encoder.fieldLines, Encoder.fieldCounts]
  | succ k ih =>
    intro enc enc' b hq h
    rw [EncodeLoop_unfold] at h
    by_cases hpos : b.len > 0
    · simp only [hpos, if_true] at h
      have hq1 := encodeField_quota enc b hq
      rcases hf : enc.encodeField b with ⟨enc1, r⟩
      rw [hf] at h hq1
      simp only at hq1
      cases r with
      | error f => simp at h
      | ok c =>
        have hc := encodeField_count enc b enc1 c hf
        have htxt := encodeField_text enc enc1 b c hq hf
        simp only [sliceFrom_ok b c (by omega) hc.2.2] at h
        obtain ⟨ih1, ih2⟩ := ih enc1 enc' _ hq1 h
        simp only [Encoder.fieldLines, Encoder.fieldCounts, hpos, if_true, hf,
          sliceFrom_ok b c (by omega) hc.2.2, List.map_cons, List.flatten_cons,
          List.length_cons]
        refine ⟨?_, by rw [ih2]⟩
        rw [ih1, htxt]
        simp only [List.append_assoc]
    · simp only [hpos, if_false, Option.some.injEq, Prod.mk.injEq, and_true] at h
      rw [← h]
      simp [Encoder.fieldLines, Encoder.fieldCounts, hpos]

theorem fieldLines_shape (fuel : Nat) : ∀ (enc : Encoder) (b : Slice),
    ∀ p ∈ enc.fieldLines fuel b,
      p.1.getLast? = some 0x0A ∧ newlines p.1 = 1 ∧
      p.2.1.getLast? = some 0x0A ∧ newlines p.2.1 = 1 + newlines p.2.2 := by
  induction fuel with
  | zero => intro enc b p hp; simp [Encoder.fieldLines] at hp
  | succ k ih =>
    intro enc b p hp
    simp only [Encoder.fieldLines] at hp
    by_cases hpos : b.len > 0
    · simp only [hpos, if_true] at hp
      rcases hf : enc.encodeField b with ⟨enc1, r⟩
      rw [hf] at hp
      cases r with
      | error f => simp at hp
      | ok c =>
        simp only at hp
        have hhead : ∀ q : List Byte × List Byte × List Byte,
            q = (tagLine enc.indent (b.elems.take (ConsumeTag b.elems).2.2.toNat)
                (ConsumeTag b.elems).1 (ConsumeTag b.elems).2.1,
              valueLine enc.indent ((b.elems.drop (ConsumeTag b.elems).2.2.toNat).take
                (c - (ConsumeTag b.elems).2.2).toNat)
                (match (enc.decodeValue (ConsumeTag b.elems).2.1
                    (b.elems.drop (ConsumeTag b.elems).2.2.toNat)).2 with
                  | .ok (_, v) => v
                  | .error _ => []),
              (match (enc.decodeValue (ConsumeTag b.elems).2.1
                    (b.elems.drop (ConsumeTag b.elems).2.2.toNat)).2 with
                  | .ok (_, v) => v
                  | .error _ => [])) →
            q.1.getLast? = some 0x0A ∧ newlines q.1 = 1 ∧
            q.2.1.getLast? = some 0x0A ∧ newlines q.2.1 = 1 + newlines q.2.2 := by
          intro q hq
          rw [hq]
          exact ⟨getLast?_tagLine _ _ _ _, newlines_tagLine _ _ _ _,
            getLast?_valueLine _ _ _, newlines_valueLine _ _ _⟩
        cases hs : b.sliceFrom c with
        | error f =>
          rw [hs] at hp
          simp only [List.mem_singleton] at hp
          exact hhead p hp
        | ok b1 =>
          rw [hs] at hp
          simp only [List.mem_cons] at hp
          rcases hp with hp | hp
          · exact hhead p hp
          · exact ih enc1 b1 p hp
    · simp [hpos] at hp

theorem newlines_lines (L : List (List Byte × List Byte × List Byte))
    (h : ∀ p ∈ L, newlines p.1 = 1 ∧ newlines p.2.1 = 1 + newlines p.2.2) :
    newlines ((L.map (fun p => p.1 ++ p.2.1)).flatten) =
      2 * L.length + (L.map (fun p => newlines p.2.2)).sum := by
  induction L with
  | nil => rfl
  | cons p L ih =>
    have hp := h p (by simp)
    have := ih (fun q hq => h q (by simp [hq]))
    simp only [List.map_cons, List.flatten_cons, newlines_append, List.length_cons,
      List.sum_cons, this, hp.1, hp.2]
    omega

/-- Only a LengthDelimited field can render a value that holds a newline. -/
theorem decodeValue_newlines (enc : Encoder) (typ : Nat) (l : List Byte) (m : Int)
    (val : List Byte) (h : (enc.decodeValue typ l).2 = .ok (m, val))
    (hty : typ ≠ BytesType) : newlines val = 0 := by
  unfold Encoder.decodeValue at h
  by_cases h0 : typ = VarintType
  · rw [if_pos h0] at h
    split at h
    split at h
    · simp at h
    · simp only [Except.ok.injEq, Prod.mk.injEq] at h
      rw [← h.2]; exact newlines_decimal _
  · rw [if_neg h0] at h
    by_cases h5 : typ = Fixed32Type
    · rw [if_pos h5] at h
      split at h
      split at h
      · simp at h
      · simp only [Except.ok.injEq, Prod.mk.injEq] at h
        rw [← h.2]; exact newlines_decimal _
    · rw [if_neg h5] at h
      by_cases h1 : typ = Fixed64Type
      · rw [if_pos h1] at h
        split at h
        split at h
        · simp at h
        · simp only [Except.ok.injEq, Prod.mk.injEq] at h
          rw [← h.2]; exact newlines_decimal _
      · rw [if_neg h1, if_neg hty] at h
        by_cases h3 : typ = StartGroupType
        · rw [if_pos h3] at h
          simp only [Except.ok.injEq, Prod.mk.injEq] at h
          rw [← h.2]; decide!
        · rw [if_neg h3] at h
          by_cases h4 : typ = EndGroupType
          · rw [if_pos h4] at h
            simp only [Except.ok.injEq, Prod.mk.injEq] at h
            rw [← h.2]; decide!
          · rw [if_neg h4] at h
            simp at h

/-- At negative depth `Encode` of a non-empty input panics in `writeIndent`, before
anything is read or written. -/
theorem Encode_negative_depth (enc : Encoder) (b : Slice) (hne : 0 < b.len)
    (h : enc.indent < 0) :
    enc.Encode b = some (enc, .error (.panic .negativeRepeat)) :=
  Encode_fail enc b enc _ hne (encodeField_negative_depth enc b h)

theorem fieldCounts_length (fuel : Nat) : ∀ (enc : Encoder) (b : Slice),
    (enc.fieldCounts fuel b).length ≤ b.len := by
  induction fuel with
  | zero => intro enc b; simp [Encoder.fieldCounts]
  | succ k ih =>
    intro enc b
    simp only [Encoder.fieldCounts]
    by_cases hpos : b.len > 0
    · simp only [hpos, if_true]
      rcases hf : enc.encodeField b with ⟨enc1, r⟩
      cases r with
      | error f => simp
      | ok c =>
        have hc := encodeField_count enc b enc1 c hf
        simp only [sliceFrom_ok b c (by omega) hc.2.2, List.length_cons]
        have := ih enc1 ⟨b.elems.drop c.toNat, b.spare⟩
        simp only [Slice.len, List.length_drop] at this hc ⊢
        omega
    · simp [hpos]

/-! ## The claims, continued -/

/-- C11 (failing input). On `0c 08 01`, an EndGroup field with no StartGroup before it
followed by a well-formed Varint field, `Encode` on a fresh encoder processes the
EndGroup field (the depth becomes -1) and then panics in `writeIndent` at the next
field (`strings.Repeat` with the count -2): it does not return nil.  The EndGroup
field alone returns nil, and so does the Varint field alone. -/
theorem C11_field_after_unmatched_end_group_panics :
    (NewEncoder emptySink).Encode ⟨[0x0c, 0x08, 0x01], []⟩ =
      some (⟨⟨ascii "0c // field id=1 type=EndGroup\n // End Group\n", none⟩, -1⟩,
        .error (.panic .negativeRepeat)) ∧
    (NewEncoder emptySink).Encode ⟨[0x0c], []⟩ =
      some (⟨⟨ascii "0c // field id=1 type=EndGroup\n // End Group\n", none⟩, -1⟩,
        .ok ()) ∧
    (NewEncoder emptySink).Encode ⟨[0x08, 0x01], []⟩ =
      some (⟨⟨ascii "08 // field id=1 type=Varint\n01 // 1\n", none⟩, 0⟩, .ok ()) := by
  exact ⟨by decide!, by decide!, by decide!⟩

/-- C12. When `Encode` returns nil starting from depth `d`, the final depth is
`d + s - e`, where `s` and `e` are the numbers of StartGroup and EndGroup fields among
the fields of the input; every field that `encodeField` processes changes the depth
by exactly +1 when it is a StartGroup, by exactly -1 when it is an EndGroup, and
leaves it unchanged otherwise.  (This holds for every sink.) -/
theorem C12_final_depth_counts_group_markers (enc enc' : Encoder) (b : Slice)
    (h : enc.Encode b = some (enc', .ok ())) :
    enc'.indent = enc.indent + ((enc.fieldTypes b.len b).count StartGroupType : Int)
      - ((enc.fieldTypes b.len b).count EndGroupType : Int) ∧
    ∀ (e0 e1 : Encoder) (b0 : Slice) (c : Int), e0.encodeField b0 = (e1, .ok c) →
      ((ConsumeTag b0.elems).2.1 = StartGroupType → e1.indent = e0.indent + 1) ∧
      ((ConsumeTag b0.elems).2.1 = EndGroupType → e1.indent = e0.indent - 1) ∧
      ((ConsumeTag b0.elems).2.1 ≠ StartGroupType →
        (ConsumeTag b0.elems).2.1 ≠ EndGroupType → e1.indent = e0.indent) := by
  refine ⟨?_, ?_⟩
  · have := fieldTypes_final_depth b.len enc enc' b h
    omega
  · intro e0 e1 b0 c hf
    have hi := encodeField_indent e0 e1 b0 c hf
    refine ⟨fun ht => ?_, fun ht => ?_, fun h3 h4 => ?_⟩
    · rw [hi, ht]; rfl
    · rw [hi, ht]; rfl
    · rw [hi]; simp [depthChange, h3, h4]

theorem C12_witness :
    (NewEncoder emptySink).fieldTypes 6 ⟨[0x0b, 0x0b, 0x08, 0x01, 0x0c, 0x0b], []⟩
      = [3, 3, 0, 4, 3] ∧
    (2 : Int) = 0 + (([3, 3, 0, 4, 3] : List Nat).count StartGroupType : Int)
      - (([3, 3, 0, 4, 3] : List Nat).count EndGroupType : Int) ∧
    (⟨⟨ascii "0b // field id=1 type=StartGroup\n // Start Group\n  0b // field id=1 type=StartGroup\n   // Start Group\n    08 // field id=1 type=Varint\n    01 // 1\n    0c // field id=1 type=EndGroup\n     // End Group\n  0b // field id=1 type=StartGroup\n   // Start Group\n", none⟩, 2⟩ : Encoder).indent
      = (NewEncoder emptySink).indent
        + (((NewEncoder emptySink).fieldTypes
            (Slice.len ⟨[0x0b, 0x0b, 0x08, 0x01, 0x0c, 0x0b], []⟩)
            ⟨[0x0b, 0x0b, 0x08, 0x01, 0x0c, 0x0b], []⟩).count StartGroupType : Int)
        - (((NewEncoder emptySink).fieldTypes
            (Slice.len ⟨[0x0b, 0x0b, 0x08, 0x01, 0x0c, 0x0b], []⟩)
            ⟨[0x0b, 0x0b, 0x08, 0x01, 0x0c, 0x0b], []⟩).count EndGroupType : Int) :=
  ⟨by decide!, by decide!,
    (C12_final_depth_counts_group_markers (NewEncoder emptySink)
      ⟨⟨ascii "0b // field id=1 type=StartGroup\n // Start Group\n  0b // field id=1 type=StartGroup\n   // Start Group\n    08 // field id=1 type=Varint\n    01 // 1\n    0c // field id=1 type=EndGroup\n     // End Group\n  0b // field id=1 type=StartGroup\n   // Start Group\n", none⟩, 2⟩
      ⟨[0x0b, 0x0b, 0x08, 0x01, 0x0c, 0x0b], []⟩ (by decide!)).1⟩

/-- C13 (amended). For every field that `encodeField` processes without error (sink
never failing), where `d` is the nesting depth before the field: `d >= 0`; the text
written is the tag line followed by the value line; the tag line begins with exactly
`2*d` spaces; the value line begins with exactly `2*d` spaces when the field has
value bytes, and with exactly `2*d + 1` spaces (the indentation and the separator of
` // `) when it is a group marker; the changed depth applies from the following
field on.  The depth before the `i`-th processed field is the starting depth plus
the number of StartGroup fields minus the number of EndGroup fields among the
preceding fields. -/
theorem C13_lines_are_indented_by_the_depth_before_the_field (enc enc' : Encoder)
    (b : Slice) (c : Int) (hq : enc.w.quota = none)
    (h : enc.encodeField b = (enc', .ok c)) :
    0 ≤ enc.indent ∧
    (∃ val,
      enc'.w.data = enc.w.data
        ++ tagLine enc.indent (b.elems.take (ConsumeTag b.elems).2.2.toNat)
            (ConsumeTag b.elems).1 (ConsumeTag b.elems).2.1
        ++ valueLine enc.indent ((b.elems.drop (ConsumeTag b.elems).2.2.toNat).take
            (c - (ConsumeTag b.elems).2.2).toNat) val ∧
      (leadingSpaces (tagLine enc.indent (b.elems.take (ConsumeTag b.elems).2.2.toNat)
          (ConsumeTag b.elems).1 (ConsumeTag b.elems).2.1) : Int) = 2 * enc.indent ∧
      (leadingSpaces (valueLine enc.indent
          ((b.elems.drop (ConsumeTag b.elems).2.2.toNat).take
            (c - (ConsumeTag b.elems).2.2).toNat) val) : Int) =
        2 * enc.indent + (if (ConsumeTag b.elems).2.1 = StartGroupType
          ∨ (ConsumeTag b.elems).2.1 = EndGroupType then 1 else 0)) ∧
    enc'.indent = enc.indent + depthChange (ConsumeTag b.elems).2.1 ∧
    (∀ (e0 : Encoder) (b0 : Slice) (fuel i : Nat) (d : Int),
      (e0.fieldDepths fuel b0)[i]? = some d →
      d = e0.indent + ((((e0.fieldTypes fuel b0).take i).count StartGroupType : Int)
        - (((e0.fieldTypes fuel b0).take i).count EndGroupType : Int))) := by
  have hd : 0 ≤ enc.indent := by
    by_contra hneg
    rw [encodeField_negative_depth enc _ (by omega)] at h
    simp at h
  have hc := encodeField_count enc b enc' c h
  simp only [Slice.len] at hc
  refine ⟨hd, ?_, encodeField_indent enc enc' b c h,
    fun e0 b0 fuel i d hi => fieldDepths_spec fuel e0 b0 i d hi⟩
  rcases ht : ConsumeTag b.elems with ⟨num, typ, n⟩
  rw [ht] at hc
  simp only at hc ⊢
  have hn : 0 ≤ n := by omega
  rw [encodeField_closed enc b num typ n hq hd ht hn] at h
  rcases hdv : (enc.decodeValue typ (b.elems.drop n.toNat)).2 with f | ⟨m, val⟩
  · rw [hdv] at h
    simp at h
  · rw [hdv] at h
    simp only [Prod.mk.injEq, Except.ok.injEq] at h
    obtain ⟨h1, h2⟩ := h
    have hm : 0 ≤ m ∧ m ≤ (b.elems.drop n.toNat).length := by
      have hfull : enc.decodeValue typ (b.elems.drop n.toNat)
          = ((enc.decodeValue typ (b.elems.drop n.toNat)).1, .ok (m, val)) := by
        rw [← hdv]
      exact decodeValue_count _ _ _ _ _ _ hfull
    have hz := decodeValue_count_zero_iff enc typ _ m val hdv
    have hcm : c - n = m := by omega
    rw [hcm]
    obtain ⟨x, xs, htag⟩ : ∃ x xs, b.elems.take n.toNat = x :: xs := by
      cases hl : b.elems.take n.toNat with
      | nil =>
        have := congrArg List.length hl
        simp only [List.length_take, List.length_nil] at this
        omega
      | cons x xs => exact ⟨x, xs, rfl⟩
    refine ⟨val, ?_, ?_, ?_⟩
    · rw [← h1]
      simp [Encoder.emit, List.append_assoc]
    · rw [htag, leadingSpaces_tagLine]
      omega
    · by_cases hg : typ = StartGroupType ∨ typ = EndGroupType
      · have hm0 : m = 0 := hz.1 hg
        subst hm0
        simp only [hg, if_true, Int.toNat_zero, List.take_zero]
        rw [leadingSpaces_valueLine_nil]
        omega
      · have hm1 : 1 ≤ m := hz.2 (fun e => hg (Or.inl e)) (fun e => hg (Or.inr e))
        simp only [hg, if_false]
        obtain ⟨y, ys, hval⟩ : ∃ y ys, (b.elems.drop n.toNat).take m.toNat = y :: ys := by
          cases hl : (b.elems.drop n.toNat).take m.toNat with
          | nil =>
            have := congrArg List.length hl
            simp only [List.length_take, List.length_nil] at this
            omega
          | cons y ys => exact ⟨y, ys, rfl⟩
        rw [hval, leadingSpaces_valueLine]
        omega

theorem C13_witness :
    ∃ val,
      (ascii "  0b // field id=1 type=StartGroup\n   // Start Group\n" : List Byte) =
        [] ++ tagLine 1 [0x0b] 1 3 ++ valueLine 1 [] val ∧
      (leadingSpaces (tagLine 1 [0x0b] 1 3) : Int) = 2 * 1 ∧
      (leadingSpaces (valueLine 1 [] val) : Int) = 2 * 1 + 1 := by
  obtain ⟨val, h1, h2, h3⟩ :=
    (C13_lines_are_indented_by_the_depth_before_the_field (encoderAt 1)
      ⟨⟨ascii "  0b // field id=1 type=StartGroup\n   // Start Group\n", none⟩, 2⟩
      ⟨[0x0b, 0x08, 0x01], []⟩ 1 rfl (by decide!)).2.1
  exact ⟨val, h1, h2, h3⟩

/-- C13 (as stated) fails: at depth 0 the value line of the StartGroup field `0b` is
` // Start Group`, which begins with one space, not with exactly `2*0` spaces. -/
theorem C13_counterexample :
    (NewEncoder emptySink).Encode ⟨[0x0b], []⟩ =
      some (⟨⟨ascii "0b // field id=1 type=StartGroup\n" ++ ascii " // Start Group\n",
        none⟩, 1⟩, .ok ()) ∧
    leadingSpaces (ascii " // Start Group\n") = 1 ∧
    leadingSpaces (ascii " // Start Group\n") ≠ 2 * 0 := by
  exact ⟨by decide!, by decide!, by decide!⟩

/-- C14 (amended). The nesting depth is a field of the Encoder: it is 0 on a fresh
Encoder and is carried over from one `Encode` call to the next.  On a sink that
never fails, what `Encode(b)` writes and returns after an earlier `Encode(a)` on the
same Encoder is what `Encode(b)` writes and returns on an Encoder with an empty sink
at the depth left by `Encode(a)`; it is what a fresh Encoder writes and returns
whenever `Encode(a)` left the depth at 0. -/
theorem C14_depth_is_carried_over_between_calls (enc enc1 : Encoder) (a b : Slice)
    (r1 : Except Fault Unit) (hq : enc.w.quota = none)
    (ha : enc.Encode a = some (enc1, r1)) :
    enc1.Encode b =
      ((encoderAt enc1.indent).Encode b).map
        (fun r => (Encoder.prepend enc1.w.data r.1, r.2)) ∧
    (enc1.indent = 0 →
      enc1.Encode b =
        ((NewEncoder emptySink).Encode b).map
          (fun r => (Encoder.prepend enc1.w.data r.1, r.2))) := by
  have hq1 := Encode_quota enc enc1 a r1 hq ha
  have h := Encode_prepend enc1 b hq1
  refine ⟨h, fun h0 => ?_⟩
  rw [h, h0]
  rfl

theorem C14_witness :
    (⟨⟨ascii "0b // field id=1 type=StartGroup\n // Start Group\n", none⟩, 1⟩ : Encoder).Encode
        ⟨[0x08, 0x01], []⟩ =
      ((encoderAt 1).Encode ⟨[0x08, 0x01], []⟩).map
        (fun r => (Encoder.prepend
          (ascii "0b // field id=1 type=StartGroup\n // Start Group\n") r.1, r.2)) ∧
    (encoderAt 1).Encode ⟨[0x08, 0x01], []⟩ =
      some (⟨⟨ascii "  08 // field id=1 type=Varint\n  01 // 1\n", none⟩, 1⟩, .ok ()) :=
  ⟨(C14_depth_is_carried_over_between_calls (NewEncoder emptySink)
    ⟨⟨ascii "0b // field id=1 type=StartGroup\n // Start Group\n", none⟩, 1⟩
    ⟨[0x0b], []⟩ ⟨[0x08, 0x01], []⟩ (.ok ()) rfl (by decide!)).1, by decide!⟩

/-- C14 (as stated) fails: after `Encode` of the StartGroup field `0b` on a fresh
Encoder the depth is 1, and `Encode` of `08 01` on the same Encoder then writes its
two lines indented by two spaces, while a fresh Encoder writes them unindented. -/
theorem C14_counterexample :
    (NewEncoder emptySink).Encode ⟨[0x0b], []⟩ =
      some (⟨⟨ascii "0b // field id=1 type=StartGroup\n // Start Group\n", none⟩, 1⟩,
        .ok ()) ∧
    (⟨⟨ascii "0b // field id=1 type=StartGroup\n // Start Group\n", none⟩, 1⟩ : Encoder).Encode
        ⟨[0x08, 0x01], []⟩ =
      some (⟨⟨ascii "0b // field id=1 type=StartGroup\n // Start Group\n"
          ++ ascii "  08 // field id=1 type=Varint\n  01 // 1\n", none⟩, 1⟩, .ok ()) ∧
    (NewEncoder emptySink).Encode ⟨[0x08, 0x01], []⟩ =
      some (⟨⟨ascii "08 // field id=1 type=Varint\n01 // 1\n", none⟩, 0⟩, .ok ()) ∧
    ascii "  08 // field id=1 type=Varint\n  01 // 1\n"
      ≠ ascii "08 // field id=1 type=Varint\n01 // 1\n" := by
  exact ⟨by decide!, by decide!, by decide!, by decide!⟩

/-- C15. Decoding is sequential with no rollback.  When `Encode(p)` returns nil having
reached the encoder state `enc1` (the sink holds the text `o` written for `p`, the
depth is `d'`), `Encode(p ++ q)` on a sink that never fails does what `Encode(q)`
does from that state: it writes `o` followed by exactly what `Encode(q)` writes when
started at depth `d'` and returns what that `Encode(q)` returns.  In particular when
`Encode(p ++ q)` ends with an error, the text `o` is still at the start of the sink. -/
theorem C15_encode_is_sequential_without_rollback (enc enc1 : Encoder)
    (p q sp spare : List Byte) (hq : enc.w.quota = none)
    (hp : enc.Encode ⟨p, sp⟩ = some (enc1, .ok ())) :
    enc.Encode ⟨p ++ q, spare⟩ = enc1.Encode ⟨q, spare⟩ ∧
    enc.Encode ⟨p ++ q, spare⟩ =
      ((encoderAt enc1.indent).Encode ⟨q, spare⟩).map
        (fun r => (Encoder.prepend enc1.w.data r.1, r.2)) ∧
    (∀ e f, enc.Encode ⟨p ++ q, spare⟩ = some (e, .error f) →
      ∃ t, e.w.data = enc1.w.data ++ t ∧
        (encoderAt enc1.indent).Encode ⟨q, spare⟩ = some (⟨⟨t, none⟩, e.indent⟩, .error f)) := by
  have h1 := Encode_append p.length enc enc1 p q sp spare (le_refl _) hq hp
  have hq1 := Encode_quota enc enc1 ⟨p, sp⟩ _ hq hp
  have h2 := Encode_prepend enc1 ⟨q, spare⟩ hq1
  refine ⟨h1, h1.trans h2, ?_⟩
  intro e f he
  rw [h1, h2] at he
  rcases hr : (encoderAt enc1.indent).Encode ⟨q, spare⟩ with _ | ⟨e0, r0⟩
  · rw [hr] at he
    simp at he
  · rw [hr] at he
    simp only [Option.map_some', Option.some.injEq, Prod.mk.injEq] at he
    have hq0 := Encode_quota (encoderAt enc1.indent) e0 ⟨q, spare⟩ r0 rfl hr
    refine ⟨e0.w.data, ?_, ?_⟩
    · rw [← he.1]; rfl
    · rw [← he.1, ← he.2]
      rcases e0 with ⟨⟨data, quota⟩, indent⟩
      simp only at hq0
      subst hq0
      rfl

theorem C15_witness :
    (NewEncoder emptySink).Encode ⟨[0x0b, 0x08, 0x01] ++ [0x09, 0x00], []⟩ =
      (⟨⟨ascii "0b // field id=1 type=StartGroup\n // Start Group\n  08 // field id=1 type=Varint\n  01 // 1\n", none⟩, 1⟩ : Encoder).Encode
        ⟨[0x09, 0x00], []⟩ ∧
    (NewEncoder emptySink).Encode ⟨[0x0b, 0x08, 0x01] ++ [0x09, 0x00], []⟩ =
      some (⟨⟨ascii "0b // field id=1 type=StartGroup\n // Start Group\n  08 // field id=1 type=Varint\n  01 // 1\n" ++ ascii "  09 // field id=1 type=Fixed64\n  ", none⟩, 1⟩,
        .error (.err .parseFixed64)) :=
  ⟨(C15_encode_is_sequential_without_rollback (NewEncoder emptySink)
    ⟨⟨ascii "0b // field id=1 type=StartGroup\n // Start Group\n  08 // field id=1 type=Varint\n  01 // 1\n", none⟩, 1⟩
    [0x0b, 0x08, 0x01] [0x09, 0x00] [] [] rfl (by decide!)).1, by decide!⟩

/-- C16 (amended). For every tag that the tag reader accepts, with field number `N`
and wire type `T`, at depth `d >= 0` on a sink that never fails, the tag line
written is exactly: `2*d` spaces, the tag's own bytes as space-separated hex, then
` // field id=<decimal N> type=<TypeName>` and a newline, where TypeName is the name
that `typeToString` gives: Varint, Fixed32, Fixed64, Bytes, StartGroup, EndGroup for
the six wire types, and `<Unknown>` for the selectors 6 and 7. -/
theorem C16_tag_line_format (enc : Encoder) (b : Slice) (num : Int) (typ : Nat) (n : Int)
    (hq : enc.w.quota = none) (hd : 0 ≤ enc.indent)
    (ht : ConsumeTag b.elems = (num, typ, n)) (hn : 0 ≤ n) :
    (∃ t, (enc.encodeField b).1.w.data =
      enc.w.data ++ (List.replicate (2 * enc.indent).toNat 0x20
        ++ hexBytes (b.elems.take n.toNat) ++ ascii " // field id=" ++ decimal num.toNat
        ++ ascii " type=" ++ ascii (typeToString typ) ++ ascii "\n") ++ t) ∧
    1 ≤ num ∧ typ ≤ 7 ∧
    typeToString 0 = "Varint" ∧ typeToString 5 = "Fixed32" ∧ typeToString 1 = "Fixed64" ∧
    typeToString 2 = "Bytes" ∧ typeToString 3 = "StartGroup" ∧
    typeToString 4 = "EndGroup" ∧ typeToString 6 = "<Unknown>" ∧
    typeToString 7 = "<Unknown>" := by
  have hb := ConsumeTag_bounds b.elems
  have hty := ConsumeTag_typ_le b.elems
  rw [ht] at hb hty
  simp only at hb hty
  refine ⟨?_, by omega, hty, rfl, rfl, rfl, rfl, rfl, rfl, rfl, rfl⟩
  rw [encodeField_closed enc b num typ n hq hd ht hn]
  rcases (enc.decodeValue typ (b.elems.drop n.toNat)).2 with f | ⟨m, val⟩
  · exact ⟨indentText enc.indent, by
      simp [Encoder.emit, tagLine, indentText, List.append_assoc]⟩
  · exact ⟨valueLine enc.indent ((b.elems.drop n.toNat).take m.toNat) val, by
      simp [Encoder.emit, tagLine, indentText, List.append_assoc]⟩

theorem C16_witness :
    ∃ t, ((encoderAt 1).encodeField ⟨[0x12, 0x01, 0x41], []⟩).1.w.data =
      ascii "  12 // field id=2 type=Bytes\n" ++ t := by
  obtain ⟨t, ht⟩ := (C16_tag_line_format (encoderAt 1) ⟨[0x12, 0x01, 0x41], []⟩ 2 2 1 rfl
    (by decide!) (by decide!) (by decide!)).1
  exact ⟨t, by rw [ht]; rfl⟩

/-- C16 (as stated) fails: for the LengthDelimited tag `12` the tag line written names
the type `Bytes`, not `LengthDelimited`. -/
theorem C16_counterexample :
    specTypeName BytesType = some "LengthDelimited" ∧
    ConsumeTag [0x12, 0x01, 0x41] = (2, BytesType, 1) ∧
    (NewEncoder emptySink).encodeField ⟨[0x12, 0x01, 0x41], []⟩ =
      (⟨⟨ascii "12 // field id=2 type=Bytes\n" ++ ascii "01 41 // A\n", none⟩, 0⟩, .ok 3) ∧
    ascii "12 // field id=2 type=Bytes\n" ≠
      ascii "12 // field id=2 type=" ++ ascii "LengthDelimited" ++ ascii "\n" := by
  exact ⟨by decide!, by decide!, by decide!, by decide!⟩

/-- C17 (amended). For every StartGroup (respectively EndGroup) field processed at
depth `d >= 0` on a sink that never fails, zero value bytes are consumed and the
value line written is exactly `2*d` spaces followed by ` // Start Group`
(respectively ` // End Group`) and a newline: no hex bytes, and one separator space
between the indentation and the comment; the depth becomes `d + 1` (respectively
`d - 1`). -/
theorem C17_group_marker_value_line (enc : Encoder) (b : Slice)
    (hq : enc.w.quota = none) (hd : 0 ≤ enc.indent) :
    enc.encodeFieldValue StartGroupType b =
      ({ enc.emit (List.replicate (2 * enc.indent).toNat 0x20 ++ ascii " // Start Group"
          ++ ascii "\n") with indent := enc.indent + 1 }, .ok 0) ∧
    enc.encodeFieldValue EndGroupType b =
      ({ enc.emit (List.replicate (2 * enc.indent).toNat 0x20 ++ ascii " // End Group"
          ++ ascii "\n") with indent := enc.indent - 1 }, .ok 0) := by
  have e1 : valueLine enc.indent (List.take (Int.toNat 0) b.elems) (ascii "Start Group")
      = List.replicate (2 * enc.indent).toNat 0x20 ++ ascii " // Start Group"
        ++ ascii "\n" := by
    simp only [Int.toNat_zero, List.take_zero, valueLine, indentText, List.append_assoc]
    rfl
  have e2 : valueLine enc.indent (List.take (Int.toNat 0) b.elems) (ascii "End Group")
      = List.replicate (2 * enc.indent).toNat 0x20 ++ ascii " // End Group"
        ++ ascii "\n" := by
    simp only [Int.toNat_zero, List.take_zero, valueLine, indentText, List.append_assoc]
    rfl
  constructor
  · rw [encodeFieldValue_ok enc _ StartGroupType b 0 (ascii "Start Group") hq hd
      (decodeValue_startGroup enc b.elems), e1]
    rfl
  · rw [encodeFieldValue_ok enc _ EndGroupType b 0 (ascii "End Group") hq hd
      (decodeValue_endGroup enc b.elems), e2]
    rfl

theorem C17_witness :
    (encoderAt 2).encodeFieldValue EndGroupType ⟨[0x08, 0x01], []⟩ =
      (⟨⟨ascii "     // End Group\n", none⟩, 1⟩, .ok 0) :=
  (C17_group_marker_value_line (encoderAt 2) ⟨[0x08, 0x01], []⟩ rfl (by decide!)).2.trans
    (by decide!)

/-- C17 (as stated) fails: at depth 0 the value line of a StartGroup field is
` // Start Group` with a leading space, not `// Start Group`. -/
theorem C17_counterexample :
    (NewEncoder emptySink).encodeFieldValue StartGroupType ⟨[], []⟩ =
      (⟨⟨ascii " // Start Group\n", none⟩, 1⟩, .ok 0) ∧
    ascii " // Start Group\n" ≠
      List.replicate (2 * 0) 0x20 ++ ascii "// Start Group" ++ ascii "\n" ∧
    (NewEncoder emptySink).encodeFieldValue EndGroupType ⟨[], []⟩ =
      (⟨⟨ascii " // End Group\n", none⟩, -1⟩, .ok 0) ∧
    ascii " // End Group\n" ≠
      List.replicate (2 * 0) 0x20 ++ ascii "// End Group" ++ ascii "\n" := by
  exact ⟨by decide!, by decide!, by decide!, by decide!⟩

/-- C18. For every byte sequence `b`, `writeBytes(b)` on a sink that never fails
writes exactly the two-digit, zero-padded, lowercase hexadecimal form of each byte in
order, separated by single spaces, with no leading or trailing separator: the empty
sequence writes nothing, a sequence of `k >= 1` bytes writes exactly `3k - 1`
characters, and two sequences with the same text are equal. -/
theorem C18_writeBytes_hex_dump (enc : Encoder) (b : Slice) (hq : enc.w.quota = none) :
    enc.writeBytes b =
      (enc.emit (List.intercalate [0x20] (b.elems.map
        (fun x => [hexDigit (x.val / 16), hexDigit (x.val % 16)]))), .ok ()) ∧
    (∀ k : Fin 16, (ascii "0123456789abcdef")[k.val]? = some (hexDigit k.val)) ∧
    (b.elems = [] → enc.writeBytes b = (enc, .ok ())) ∧
    (1 ≤ b.elems.length →
      (List.intercalate [0x20] (b.elems.map
        (fun x => [hexDigit (x.val / 16), hexDigit (x.val % 16)]))).length
        = 3 * b.elems.length - 1) ∧
    (∀ b2 : Slice, (enc.writeBytes b).1.w.data = (enc.writeBytes b2).1.w.data →
      b.elems = b2.elems) := by
  have hw := writeBytes_ok enc b hq
  refine ⟨hw, hexDigit_table, ?_, ?_, ?_⟩
  · intro hnil
    rw [hw, hnil]
    simp [hexBytes, List.intercalate]
  · intro hlen
    cases hb : b.elems with
    | nil => rw [hb] at hlen; simp at hlen
    | cons x xs => exact hexBytes_length x xs
  · intro b2 h
    rw [hw, writeBytes_ok enc b2 hq] at h
    simp only [emit_data, List.append_cancel_left_eq] at h
    exact hexBytes_injective _ _ h

theorem C18_witness :
    (encoderAt 0).writeBytes ⟨[0x00, 0x0a, 0xff], []⟩ =
      (⟨⟨ascii "00 0a ff", none⟩, 0⟩, .ok ()) :=
  (C18_writeBytes_hex_dump (encoderAt 0) ⟨[0x00, 0x0a, 0xff], []⟩ rfl).1.trans (by decide!)

/-- C19 (amended). The output is line-oriented with two lines per field: when `Encode`
returns nil after processing `k` fields (sink never failing), the text written is
the concatenation of `k` tag lines and `k` value lines, alternating, each ending
with a newline; every tag line holds exactly one newline and every value line one
more than its rendered value; so the text holds exactly `2k` newline characters
plus those inside the rendered values, which only a LengthDelimited payload shown
as text can hold: exactly `2k` when no rendered value holds a newline. -/
theorem C19_two_lines_per_field (enc enc' : Encoder) (b : Slice)
    (hq : enc.w.quota = none) (h : enc.Encode b = some (enc', .ok ())) :
    enc'.w.data = enc.w.data
      ++ ((enc.fieldLines b.len b).map (fun p => p.1 ++ p.2.1)).flatten ∧
    (enc.fieldLines b.len b).length = (enc.fieldCounts b.len b).length ∧
    (∀ p ∈ enc.fieldLines b.len b,
      p.1.getLast? = some 0x0A ∧ newlines p.1 = 1 ∧
      p.2.1.getLast? = some 0x0A ∧ newlines p.2.1 = 1 + newlines p.2.2) ∧
    newlines (((enc.fieldLines b.len b).map (fun p => p.1 ++ p.2.1)).flatten) =
      2 * (enc.fieldCounts b.len b).length
        + ((enc.fieldLines b.len b).map (fun p => newlines p.2.2)).sum ∧
    ((∀ p ∈ enc.fieldLines b.len b, newlines p.2.2 = 0) →
      newlines (((enc.fieldLines b.len b).map (fun p => p.1 ++ p.2.1)).flatten) =
        2 * (enc.fieldCounts b.len b).length) ∧
    (∀ (e : Encoder) (typ : Nat) (l : List Byte) (m : Int) (val : List Byte),
      (e.decodeValue typ l).2 = .ok (m, val) → typ ≠ BytesType → newlines val = 0) := by
  obtain ⟨h1, h2⟩ := EncodeLoop_lines b.len enc enc' b hq h
  have h3 := fieldLines_shape b.len enc b
  have h4 := newlines_lines (enc.fieldLines b.len b) (fun p hp => ⟨(h3 p hp).2.1, (h3 p hp).2.2.2⟩)
  rw [h2] at h4
  refine ⟨h1, h2, h3, h4, ?_, fun e typ l m val hv hty => decodeValue_newlines e typ l m val hv hty⟩
  intro h0
  rw [h4]
  have : ((enc.fieldLines b.len b).map (fun p => newlines p.2.2)).sum = 0 := by
    apply List.sum_eq_zero
    intro x hx
    obtain ⟨p, hp, rfl⟩ := List.mem_map.mp hx
    exact h0 p hp
  omega

theorem C19_witness :
    (NewEncoder emptySink).fieldLines 5 ⟨[0x08, 0x01, 0x12, 0x01, 0x0A], []⟩ =
      [(ascii "08 // field id=1 type=Varint\n", ascii "01 // 1\n", ascii "1"),
       (ascii "12 // field id=2 type=Bytes\n", ascii "01 0a // \n\n", ascii "\n")] ∧
    newlines (((NewEncoder emptySink).fieldLines
        (Slice.len ⟨[0x08, 0x01, 0x12, 0x01, 0x0A], []⟩)
        ⟨[0x08, 0x01, 0x12, 0x01, 0x0A], []⟩).map (fun p => p.1 ++ p.2.1)).flatten =
      2 * ((NewEncoder emptySink).fieldCounts
        (Slice.len ⟨[0x08, 0x01, 0x12, 0x01, 0x0A], []⟩)
        ⟨[0x08, 0x01, 0x12, 0x01, 0x0A], []⟩).length
      + (((NewEncoder emptySink).fieldLines
        (Slice.len ⟨[0x08, 0x01, 0x12, 0x01, 0x0A], []⟩)
        ⟨[0x08, 0x01, 0x12, 0x01, 0x0A], []⟩).map (fun p => newlines p.2.2)).sum :=
  ⟨by decide!,
    (C19_two_lines_per_field (NewEncoder emptySink)
      ⟨⟨ascii "08 // field id=1 type=Varint\n01 // 1\n12 // field id=2 type=Bytes\n01 0a // \n\n", none⟩, 0⟩
      ⟨[0x08, 0x01, 0x12, 0x01, 0x0A], []⟩ rfl (by decide!)).2.2.2.1⟩

/-- C19 (as stated) fails: on the single LengthDelimited field `12 01 0A`, whose
payload is a newline byte (valid UTF-8), `Encode` returns nil after one field and the
text written holds three newline characters, not two. -/
theorem C19_counterexample :
    (NewEncoder emptySink).Encode ⟨[0x12, 0x01, 0x0A], []⟩ =
      some (⟨⟨ascii "12 // field id=2 type=Bytes\n01 0a // \n\n", none⟩, 0⟩, .ok ()) ∧
    (NewEncoder emptySink).fieldCounts 3 ⟨[0x12, 0x01, 0x0A], []⟩ = [3] ∧
    newlines (ascii "12 // field id=2 type=Bytes\n01 0a // \n\n") = 3 ∧
    newlines (ascii "12 // field id=2 type=Bytes\n01 0a // \n\n") ≠ 2 * 1 := by
  exact ⟨by decide!, by decide!, by decide!, by decide!⟩

/-- C20. Whenever `encodeField(b)` returns a count `c` without error,
`1 <= c <= len(b)`: the tag contributes at least one byte and tag plus value never
exceed the remaining input.  Hence the slice expression `b[c:]` of `Encode` is in
range, the remaining input is strictly shorter after every iteration, the loop of
`Encode` ends on every input within `len(b)` iterations, and it processes at most
`len(b)` fields.  (This holds for every sink; an empty `b` never gives a count.) -/
theorem C20_count_bounds_and_termination (enc enc' : Encoder) (b : Slice) (c : Int)
    (h : enc.encodeField b = (enc', .ok c)) :
    1 ≤ c ∧ c ≤ (b.len : Int) ∧
    1 ≤ (ConsumeTag b.elems).2.2 ∧ (ConsumeTag b.elems).2.2 ≤ c ∧
    b.elems ≠ [] ∧
    b.sliceFrom c = .ok ⟨b.elems.drop c.toNat, b.spare⟩ ∧
    (b.elems.drop c.toNat).length < b.elems.length ∧
    (∀ (e : Encoder) (s : Slice), ∃ r, e.Encode s = some r) ∧
    (∀ (e : Encoder) (s : Slice) (fuel : Nat), s.len ≤ fuel →
      Encoder.EncodeLoop fuel e s = e.Encode s) ∧
    (∀ (e : Encoder) (s : Slice), (e.fieldCounts s.len s).length ≤ s.len) := by
  have hc := encodeField_count enc b enc' c h
  have hlen : c ≤ (b.len : Int) := hc.2.2
  refine ⟨by omega, hlen, hc.1, hc.2.1, ?_, sliceFrom_ok b c (by omega) hlen, ?_,
    fun e s => Encode_total e s,
    fun e s fuel hf => (EncodeLoop_fuel_aux fuel e s hf s.len (le_refl _)).1,
    fun e s => fieldCounts_length s.len e s⟩
  · intro hnil
    simp only [Slice.len, hnil, List.length_nil] at hlen
    omega
  · simp only [Slice.len] at hlen
    simp only [List.length_drop]
    omega

theorem C20_witness :
    (1 : Int) ≤ 3 ∧ (3 : Int) ≤ ((Slice.len ⟨[0x08, 0x96, 0x01, 0x08], []⟩ : Nat) : Int) ∧
    Slice.sliceFrom ⟨[0x08, 0x96, 0x01, 0x08], []⟩ 3 = .ok ⟨[0x08], []⟩ :=
  ⟨(C20_count_bounds_and_termination (NewEncoder emptySink)
      ⟨⟨ascii "08 // field id=1 type=Varint\n96 01 // 150\n", none⟩, 0⟩
      ⟨[0x08, 0x96, 0x01, 0x08], []⟩ 3 (by decide!)).1,
   (C20_count_bounds_and_termination (NewEncoder emptySink)
      ⟨⟨ascii "08 // field id=1 type=Varint\n96 01 // 150\n", none⟩, 0⟩
      ⟨[0x08, 0x96, 0x01, 0x08], []⟩ 3 (by decide!)).2.1,
   (C20_count_bounds_and_termination (NewEncoder emptySink)
      ⟨⟨ascii "08 // field id=1 type=Varint\n96 01 // 150\n", none⟩, 0⟩
      ⟨[0x08, 0x96, 0x01, 0x08], []⟩ 3 (by decide!)).2.2.2.2.2.1⟩

end Protoannotate
